import Mathlib

/-!
Shallow embedding of the AminoSim core (src/sequence.rs, src/mutator.rs,
src/tree.rs, src/main.rs, src/parsers.rs) and verification of the frozen
claims about it.

Conventions of the embedding:
- `f64` values are modelled over a `LinearOrderedField α` (instantiated at `ℝ`
  with `Real.exp` for the claims that mention the exponential, and at `ℚ` for
  executable witnesses).  `E.powf x` from the source is abstracted as an
  explicit function argument `expf : α → α`, instantiated with `Real.exp`.
- `panic!` / `assert!` failures are modelled as `Except.error` with the
  source's message text.
- random draws from `rand` are modelled as an explicit stream `d : Nat → α`
  of uniform draws, one draw consumed per sampled site, carrying the range
  contract of the source's `Uniform::from(lo..hi)` as a hypothesis when
  needed.
- `u8` base codes are modelled as `Nat`.
- `HashMap<String, _>` is modelled as an association list with
  insert-replaces-existing-key semantics (`hmInsert`).
-/

namespace AminoSim

/-! ## src/sequence.rs -/

/-- The `Sequence` struct of sequence.rs: a vector of nucleotide codes, a
length field, a frequency table of (base, weight) pairs and the cached
cumulative weight. -/
structure Sequence (α : Type) where
  nucleotides : List Nat
  size : Nat
  freq_table : List (Nat × α)
  max_freq : α
deriving DecidableEq

variable {α : Type} [LinearOrderedField α]

/-- The accumulation loop of `get_cumulative`: walks the table, fails on a
non-positive weight (the `assert!(f > 0.0)`), and otherwise adds it up. -/
def cumGo : List (Nat × α) → α → Except String α
  | [], acc => .ok acc
  | (_, f) :: rest, acc =>
    if 0 < f then cumGo rest (acc + f)
    else .error "Can't have nucleotide frequencies <= 0"

/-- The `get_cumulative` of sequence.rs: fails on an empty table
(`assert!(t.len() > 0)`) or a non-positive weight, else returns the sum. -/
def get_cumulative (t : List (Nat × α)) : Except String α :=
  match t with
  | [] => .error "Empty frequency table"
  | _ :: _ => cumGo t 0

/-- The cumulative-weight walk shared by `Sequence::sample` and the
transition-row walk in `HKY::mutate`: if the draw is below the current
weight, select this entry's code, else subtract and continue; `none` means
the walk fell through the whole table. -/
def walkChoose : List (Nat × α) → α → Option Nat
  | [], _ => none
  | (c, f) :: rest, r => if r < f then some c else walkChoose rest (r - f)

/-- The `Sequence::sample` of sequence.rs for a single draw `r`: the walk over the
frequency table; falling through is the `assert!(false, "Something went
terribly wrong in Sequence's sampler")` hard failure. -/
def Sequence.sample (ft : List (Nat × α)) (r : α) : Except String Nat :=
  match walkChoose ft r with
  | some c => .ok c
  | none => .error "Something went terribly wrong in Sequence's sampler"

/-- The loop body of `Sequence::append`: draws `l` nucleotides with draws
`d i0, d (i0+1), ...` and pushes them onto `acc`. -/
def appendGo (ft : List (Nat × α)) (d : Nat → α) : Nat → Nat → List Nat →
    Except String (List Nat)
  | _, 0, acc => .ok acc
  | i0, Nat.succ l, acc =>
    match Sequence.sample ft (d i0) with
    | .error e => .error e
    | .ok c => appendGo ft d (i0 + 1) l (acc ++ [c])

/-- The `Sequence::append` of sequence.rs on an existing sequence: appends `l`
sampled nucleotides and bumps `size`. -/
def Sequence.append (s : Sequence α) (l : Nat) (d : Nat → α) :
    Except String (Sequence α) :=
  match appendGo s.freq_table d 0 l s.nucleotides with
  | .error e => .error e
  | .ok ns => .ok { s with nucleotides := ns, size := s.size + l }

/-- The `Sequence::new` of sequence.rs: validates the table via `get_cumulative`,
builds the empty sequence, then appends `l` sampled nucleotides. -/
def Sequence.new (t : List (Nat × α)) (l : Nat) (d : Nat → α) :
    Except String (Sequence α) :=
  match get_cumulative t with
  | .error e => .error e
  | .ok cf =>
    Sequence.append { nucleotides := [], size := 0, freq_table := t,
                      max_freq := cf } l d

/-- The `Sequence::from_vec` of sequence.rs: validates the table, then attaches
the given vector. -/
def Sequence.from_vec (s : List Nat) (t : List (Nat × α)) :
    Except String (Sequence α) :=
  match get_cumulative t with
  | .error e => .error e
  | .ok cf =>
    .ok { nucleotides := s, size := s.length, freq_table := t, max_freq := cf }

/-! ## src/mutator.rs -/

/-- The `HKY` struct of mutator.rs. -/
structure HKY (α : Type) where
  nuc_frequencies : Fin 4 → α
  bases : Fin 4 → Nat
  kappa : α
  beta : α
  scale : α

/-- The `HKY::new` of mutator.rs: stores the parameters and computes
`beta = 1 / (2*(pa+pg)*(pc+pt) + 2*k*(pa*pg + pc*pt))`. -/
def HKY.new (pa pg pc pt : α) (ba bg bc bt : Nat) (k s : α) : HKY α :=
  { nuc_frequencies := ![pa, pg, pc, pt]
    bases := ![ba, bg, bc, bt]
    kappa := k
    beta := 1 / (2 * (pa + pg) * (pc + pt) + 2 * k * (pa * pg + pc * pt))
    scale := s }

/-- The four-entry frequency table `[(ba,pa),(bg,pg),(bc,pc),(bt,pt)]` that
both `HKY::mutate` and `HKY::random` build from the model's fields. -/
def HKY.table (m : HKY α) : List (Nat × α) :=
  [(m.bases 0, m.nuc_frequencies 0), (m.bases 1, m.nuc_frequencies 1),
   (m.bases 2, m.nuc_frequencies 2), (m.bases 3, m.nuc_frequencies 3)]

/-- The list of the four configured base codes, in table order A,G,C,T. -/
def HKY.basesList (m : HKY α) : List Nat :=
  [m.bases 0, m.bases 1, m.bases 2, m.bases 3]

/-- Row `i` of the transition-probability matrix computed inside
`HKY::mutate` (rows and columns in base order A,G,C,T), with `E.powf`
abstracted as `expf`.  Entries follow mutator.rs lines 51-87 verbatim. -/
def HKY.trow (expf : α → α) (m : HKY α) (v : α) : Fin 4 → List α :=
  let pa := m.nuc_frequencies 0
  let pg := m.nuc_frequencies 1
  let pc := m.nuc_frequencies 2
  let pt := m.nuc_frequencies 3
  let b := m.beta
  let k := m.kappa
  let scaled_v := v * m.scale
  let ag_ts_c := pa + pg + (pc + pt) * expf (-b * scaled_v)
  let ag_ts_e := expf (-(1 + (pa + pg) * (k - 1)) * b * scaled_v)
  let ct_ts_c := pc + pt + (pa + pg) * expf (-b * scaled_v)
  let ct_ts_e := expf (-(1 + (pc + pt) * (k - 1)) * b * scaled_v)
  let tv_c := 1 - expf (-b * scaled_v)
  ![[(pa * ag_ts_c + pg * ag_ts_e) / (pa + pg),
     (pg * ag_ts_c - pg * ag_ts_e) / (pa + pg),
     pc * tv_c,
     pt * tv_c],
    [(pa * ag_ts_c - pa * ag_ts_e) / (pa + pg),
     (pg * ag_ts_c + pa * ag_ts_e) / (pa + pg),
     pc * tv_c,
     pt * tv_c],
    [pa * tv_c,
     pg * tv_c,
     (pc * ct_ts_c + pt * ct_ts_e) / (pc + pt),
     (pt * ct_ts_c - pt * ct_ts_e) / (pc + pt)],
    [pa * tv_c,
     pg * tv_c,
     (pc * ct_ts_c - pc * ct_ts_e) / (pc + pt),
     (pt * ct_ts_c + pc * ct_ts_e) / (pc + pt)]]

/-- The row lookup in `HKY::mutate`: maps a symbol to its matrix row, failing
with the "Unrecognized base" panic if the symbol is none of the four codes. -/
def HKY.rowOf (m : HKY α) (n : Nat) : Except String (Fin 4) :=
  if n = m.bases 0 then .ok 0
  else if n = m.bases 1 then .ok 1
  else if n = m.bases 2 then .ok 2
  else if n = m.bases 3 then .ok 3
  else .error "Unrecognized base in Sequence being mutated"

/-- The weighted-choice loop of `HKY::mutate` over one matrix row: walks the
row with the draw; `new_base` keeps its initial value 0 when the walk falls
through, and the trailing `assert!(new_base != 0)` turns both that case and a
selected code 0 into a hard failure. -/
def HKY.chooseBase (bases : List Nat) (row : List α) (r : α) :
    Except String Nat :=
  match walkChoose (bases.zip row) r with
  | some b =>
    if b = 0 then
      .error "Something went terribly wrong in Mutator's transition choice"
    else .ok b
  | none => .error "Something went terribly wrong in Mutator's transition choice"

/-- The per-symbol mutation loop of `HKY::mutate`: symbol `i` of the input is
replaced using draw `d i` over its row of the transition matrix. -/
def mutGo (expf : α → α) (m : HKY α) (v : α) (d : Nat → α) :
    List Nat → Nat → Except String (List Nat)
  | [], _ => .ok []
  | n :: rest, i =>
    match HKY.rowOf m n with
    | .error e => .error e
    | .ok row =>
      match HKY.chooseBase m.basesList (HKY.trow expf m v row) (d i) with
      | .error e => .error e
      | .ok nb =>
        match mutGo expf m v d rest (i + 1) with
        | .error e => .error e
        | .ok ns => .ok (nb :: ns)

/-- The `HKY::mutate` of mutator.rs: computes the transition matrix for
`scaled_v = v * scale`, mutates every symbol of the input with one draw each,
and wraps the result with the model's frequency table via
`Sequence::from_vec`. -/
def HKY.mutate (expf : α → α) (m : HKY α) (s : Sequence α) (v : α)
    (d : Nat → α) : Except String (Sequence α) :=
  match mutGo expf m v d s.nucleotides 0 with
  | .error e => .error e
  | .ok ns => Sequence.from_vec ns m.table

/-- The `HKY::random` of mutator.rs: a fresh `Sequence` of length `l` drawn from
the model's frequency table. -/
def HKY.random (m : HKY α) (l : Nat) (d : Nat → α) :
    Except String (Sequence α) :=
  Sequence.new m.table l d

/-! ## src/tree.rs : data model -/

/-- The `NNode` struct of tree.rs: an owned tree node with ordered children,
an optional id, a branch length and an optional assigned sequence. -/
inductive NNode (α : Type) where
  | mk (children : List (NNode α)) (id : Option String) (branch_length : α)
       (sequence : Option (Sequence α))

/-- Field accessor for `children`. -/
def NNode.children : NNode α → List (NNode α)
  | .mk cs _ _ _ => cs

/-- Field accessor for `id`. -/
def NNode.id : NNode α → Option String
  | .mk _ i _ _ => i

/-- Field accessor for `branch_length`. -/
def NNode.branch_length : NNode α → α
  | .mk _ _ b _ => b

/-- Field accessor for `sequence`. -/
def NNode.sequence : NNode α → Option (Sequence α)
  | .mk _ _ _ s => s

/-- The `NNode::new_empty` of tree.rs. -/
def NNode.new_empty : NNode α := .mk [] none 0 none

/-- The `NNode::set_id` of tree.rs: a non-empty string sets the id, an empty one
clears it. -/
def NNode.set_id (n : NNode α) (s : List Char) : NNode α :=
  match n with
  | .mk cs _ b sq =>
    if s.length > 0 then .mk cs (some (String.mk s)) b sq
    else .mk cs none b sq

/-- The `NNode::set_branch_length` of tree.rs. -/
def NNode.set_branch_length (n : NNode α) (d : α) : NNode α :=
  match n with
  | .mk cs i _ sq => .mk cs i d sq

/-- Replace the `sequence` field (the `node.sequence = Some(..)` writes of
tree.rs). -/
def NNode.set_sequence (n : NNode α) (s : Option (Sequence α)) : NNode α :=
  match n with
  | .mk cs i b _ => .mk cs i b s

/-- The `NNode::add_child` of tree.rs: pushes a child at the end. -/
def NNode.add_child (n : NNode α) (c : NNode α) : NNode α :=
  match n with
  | .mk cs i b sq => .mk (cs ++ [c]) i b sq

/-- The `NTree` struct of tree.rs. -/
structure NTree (α : Type) where
  root : Option (NNode α)
  size : Nat
  partition : Nat
  build_str : String

/-- The `NTree::new` of tree.rs. -/
def NTree.new (p : Nat) (s : String) : NTree α :=
  { root := none, size := 0, partition := p, build_str := s }

/-! ## src/tree.rs : Newick parser -/

/-- Whitespace test used by Rust's `str::trim`. -/
def isWS (c : Char) : Bool := c.isWhitespace

/-- Model of Rust's `str::trim`: drops whitespace from both ends. -/
def trimChars (cs : List Char) : List Char :=
  ((cs.dropWhile isWS).reverse.dropWhile isWS).reverse

/-- Evaluates a digit string as a natural number. -/
def digitsVal : List Char → Nat → Nat
  | [], acc => acc
  | c :: cs, acc => digitsVal cs (acc * 10 + (c.toNat - 48))

/-- Modelled from Rust's `str::parse::<f64>` as used by tree.rs on
branch-length text (plain decimal numerals): an optional sign, then digits
with at most one decimal point and at least one digit; anything else is
non-numeric and fails. -/
def parseFloat (cs : List Char) : Option ℚ :=
  let core : List Char → Option ℚ := fun body =>
    let ip := body.takeWhile Char.isDigit
    let rest := body.dropWhile Char.isDigit
    match rest with
    | [] => if ip.isEmpty then none else some (digitsVal ip 0)
    | '.' :: fp =>
      if fp.all Char.isDigit && !(ip.isEmpty && fp.isEmpty) then
        some ((digitsVal ip 0 : ℚ) + (digitsVal fp 0 : ℚ) / 10 ^ fp.length)
      else none
    | _ => none
  match cs with
  | '-' :: body => (core body).map (fun q => -q)
  | '+' :: body => core body
  | _ => core cs

/-- The `NNode::consume` of tree.rs: flag 1 finalizes the id from the trimmed
buffer, flag 2 parses the trimmed buffer as a branch length (failing on
non-numeric text), any other flag is the `assert!(false)` case. -/
def NNode.consume (n : NNode α) (flag : Nat) (buf : List Char) :
    Except String (NNode α) :=
  if flag = 1 then .ok (n.set_id (trimChars buf))
  else if flag = 2 then
    match parseFloat (trimChars buf) with
    | some q => .ok (n.set_branch_length (q : α))
    | none => .error "Could not parse buffer into branch!"
  else .error "Invalid read flag"

/-- The mutable scan state of `NTree::build_from_newick`: the parent stack
(head = top), the node under construction, the text buffer, the read flag
(1 = id, 2 = branch length) and the running node count. -/
structure PState (α : Type) where
  stack : List (NNode α)
  curr : NNode α
  buffer : List Char
  flag : Nat
  size : Nat

/-- The character loop of `NTree::build_from_newick`, one case per character
class exactly as in tree.rs; returns the state at the `';'` break (with the
unread remainder, which the source merely warns about) or at end of input. -/
def prun : List Char → PState α → Except String (PState α × List Char)
  | [], st => .ok (st, [])
  | c :: cs, st =>
    if c = '(' then
      prun cs { st with stack := st.curr :: st.stack, curr := NNode.new_empty }
    else if c = ',' then
      match st.stack with
      | [] => .error "Empty tree building stack, does your Newick tree have a single root node?"
      | p :: ps =>
        match st.curr.consume st.flag st.buffer with
        | .error e => .error e
        | .ok cur =>
          prun cs { stack := p.add_child cur :: ps, curr := NNode.new_empty,
                    buffer := [], flag := 1, size := st.size + 1 }
    else if c = ')' then
      match st.stack with
      | [] => .error "Empty tree building stack, does your Newick tree have a single root node?"
      | p :: ps =>
        match st.curr.consume st.flag st.buffer with
        | .error e => .error e
        | .ok cur =>
          prun cs { stack := ps, curr := p.add_child cur,
                    buffer := [], flag := 1, size := st.size + 1 }
    else if c = ':' then
      match st.curr.consume st.flag st.buffer with
      | .error e => .error e
      | .ok cur =>
        prun cs { st with curr := cur, buffer := [], flag := 2 }
    else if c = ';' then
      match st.curr.consume st.flag st.buffer with
      | .error e => .error e
      | .ok cur => .ok ({ st with curr := cur, buffer := [] }, cs)
    else
      prun cs { st with buffer := st.buffer ++ [c] }

/-- The `NTree::build_from_newick` of tree.rs: fails if the tree is already
built, runs the character scan from a fresh state, fails if the parent stack
is non-empty at the end (unbalanced parentheses), and otherwise installs the
final current node as root, counts it, and clears the build string. -/
def NTree.build_from_newick (t : NTree α) : Except String (NTree α) :=
  if t.root.isSome then .error "Tree already built!"
  else
    match prun t.build_str.data
        { stack := [], curr := NNode.new_empty, buffer := [], flag := 1,
          size := t.size } with
    | .error e => .error e
    | .ok (st, _) =>
      if st.stack.isEmpty then
        .ok { t with root := some st.curr, size := st.size + 1,
                     build_str := "" }
      else .error "Unbalanced parens on Newick tree"

/-! ## src/tree.rs : evolution engine -/

/-- Insertion into the result `HashMap<String, Sequence>`: replaces the value
of an existing key in place, otherwise appends a new entry. -/
def hmInsert {β : Type} : List (String × β) → String → β → List (String × β)
  | [], k, v => [(k, v)]
  | (k', v') :: rest, k, v =>
    if k' = k then (k', v) :: rest else (k', v') :: hmInsert rest k v

mutual
/-- Node weight (total node count of the subtree), the termination measure
for the explicit-stack DFS. -/
def NNode.weight : NNode α → Nat
  | .mk cs _ _ _ => weightL cs
/-- Weight of a list of sibling subtrees, plus one for their parent. -/
def weightL : List (NNode α) → Nat
  | [] => 1
  | c :: cs => NNode.weight c + weightL cs
end

/-- Total weight of a DFS work stack. -/
def stackWeight : List (NNode α × Option (Sequence α)) → Nat
  | [] => 0
  | (n, _) :: rest => n.weight + stackWeight rest

omit [LinearOrderedField α] in
theorem weightL_pos (cs : List (NNode α)) : 1 ≤ weightL cs := by
  induction cs with
  | nil => simp [weightL]
  | cons c cs ih => simp only [weightL]; omega

omit [LinearOrderedField α] in
theorem NNode.weight_pos (n : NNode α) : 1 ≤ n.weight := by
  cases n with
  | mk cs i b s => simpa [NNode.weight] using weightL_pos cs

omit [LinearOrderedField α] in
theorem NNode.weight_children (n : NNode α) : n.weight = weightL n.children := by
  cases n with
  | mk cs i b s => simp [NNode.weight, NNode.children]

omit [LinearOrderedField α] in
theorem stackWeight_append (l1 l2 : List (NNode α × Option (Sequence α))) :
    stackWeight (l1 ++ l2) = stackWeight l1 + stackWeight l2 := by
  induction l1 with
  | nil => simp [stackWeight]
  | cons e l1 ih =>
    match e with
    | (n, ps) =>
      simp only [List.cons_append, stackWeight, List.append_eq, ih]
      omega

/-- Arithmetic helper for the DFS termination measure. -/
theorem sub_one_add_lt_add {a : Nat} (h : 1 ≤ a) (b : Nat) :
    a - 1 + b < a + b := by omega

omit [LinearOrderedField α] in
theorem stackWeight_revmap (cs : List (NNode α)) (os : Option (Sequence α)) :
    stackWeight (cs.reverse.map (fun c => (c, os))) = weightL cs - 1 := by
  induction cs with
  | nil => simp [stackWeight, weightL]
  | cons c cs ih =>
    have h1 := weightL_pos cs
    have hc := NNode.weight_pos c
    simp only [List.reverse_cons, List.map_append, stackWeight_append,
      List.map_cons, List.map_nil, stackWeight, weightL] at *
    omega

/-- The sequence for the popped node: mutate the parent sequence when one
was pushed, otherwise require `node.sequence` already set (the seeded
root).  The mutator trait object is the function argument `mf`. -/
def resolveSeq (mf : Sequence α → α → Except String (Sequence α))
    (pseq : Option (Sequence α)) (b : α) (sq : Option (Sequence α)) :
    Except String (Sequence α) :=
  match pseq with
  | some ps => mf ps b
  | none =>
    match sq with
    | some s => .ok s
    | none => .error "Can't evolve a tree with no ancestral sequence"

/-- One iteration of the `while` loop of `NTree::dfs_evolve` on the popped
entry `(n, pseq)`: computes the node's sequence via `resolveSeq`, records a
named tip into the accumulator map (failing on an unnamed tip), and
otherwise returns the children paired with the node's sequence, in the
order they come off the stack (last child first). -/
def dfsVisit (mf : Sequence α → α → Except String (Sequence α))
    (n : NNode α) (pseq : Option (Sequence α))
    (h : List (String × Sequence α)) :
    Except String
      (List (NNode α × Option (Sequence α)) × List (String × Sequence α)) :=
  match n with
  | .mk cs i b sq =>
    match resolveSeq mf pseq b sq with
    | .error e => .error e
    | .ok s1 =>
      match cs with
      | [] =>
        match i with
        | none => .error "Currently, only named tip nodes are supported for evolution"
        | some nm => .ok ([], hmInsert h nm s1)
      | c :: cs' =>
        .ok ((c :: cs').reverse.map (fun ch => (ch, some s1)), h)

omit [LinearOrderedField α] in
/-- A successful loop iteration pushes strictly less stack weight than the
popped node's. -/
theorem dfsVisit_weight (mf : Sequence α → α → Except String (Sequence α))
    (n : NNode α) (pseq : Option (Sequence α))
    (h h' : List (String × Sequence α))
    (entries : List (NNode α × Option (Sequence α)))
    (hv : dfsVisit mf n pseq h = Except.ok (entries, h')) :
    stackWeight entries < n.weight := by
  cases n with
  | mk cs i b sq =>
    simp only [dfsVisit] at hv
    match hres : resolveSeq mf pseq b sq with
    | .error e => simp only [hres] at hv; exact absurd hv (by simp)
    | .ok s1 =>
      simp only [hres] at hv
      match cs with
      | [] =>
        match i with
        | none => simp at hv
        | some nm =>
          simp only [Except.ok.injEq, Prod.mk.injEq] at hv
          rw [← hv.1]
          simpa [stackWeight, NNode.weight, weightL] using Nat.zero_lt_one
      | c :: cs' =>
        simp only [Except.ok.injEq, Prod.mk.injEq] at hv
        rw [← hv.1, stackWeight_revmap]
        have h1 := weightL_pos (c :: cs')
        simp only [NNode.weight]
        omega

/-- The `while` loop of `NTree::dfs_evolve`: pop, visit, push, repeat. -/
def dfsLoop (mf : Sequence α → α → Except String (Sequence α)) :
    List (NNode α × Option (Sequence α)) → List (String × Sequence α) →
    Except String (List (String × Sequence α))
  | [], h => .ok h
  | (n, pseq) :: rest, h =>
    match hv : dfsVisit mf n pseq h with
    | .error e => .error e
    | .ok (entries, h') => dfsLoop mf (entries ++ rest) h'
  termination_by stack _ => stackWeight stack
  decreasing_by
  · rw [stackWeight_append]
    have := dfsVisit_weight mf n pseq h h' entries hv
    simp only [stackWeight]
    omega

/-- The `NTree::dfs_evolve` of tree.rs: fails on an empty tree, otherwise runs
the explicit-stack DFS from the root with no parent sequence, starting from
the given (in main.rs: empty) result map. -/
def NTree.dfs_evolve (t : NTree α)
    (mf : Sequence α → α → Except String (Sequence α))
    (h : List (String × Sequence α)) :
    Except String (List (String × Sequence α)) :=
  match t.root with
  | none => .error "Can't evolve an empty tree"
  | some r => dfsLoop mf [(r, none)] h

/-- The `NTree::create_ancestral` of tree.rs: fails on an empty tree, otherwise
assigns `root.sequence = Some(m.random(partition))`. -/
def NTree.create_ancestral (t : NTree α) (m : HKY α) (d : Nat → α) :
    Except String (NTree α) :=
  match t.root with
  | none => .error "Can't create ancestral for an empty tree"
  | some r =>
    match HKY.random m t.partition d with
    | .error e => .error e
    | .ok sq => .ok { t with root := some (r.set_sequence (some sq)) }

/-! ## Observations on trees: tips and their names -/

mutual
/-- The tip (childless-node) names of a subtree, in child order, unnamed tips
reported as `""`. -/
def NNode.tipNames : NNode α → List String
  | .mk [] i _ _ => [i.getD ""]
  | .mk (c :: cs) _ _ _ => tipNamesL (c :: cs)
/-- Tip names of a list of sibling subtrees. -/
def tipNamesL : List (NNode α) → List String
  | [] => []
  | c :: cs => NNode.tipNames c ++ tipNamesL cs
end

mutual
/-- Whether every tip of the subtree carries an id. -/
def NNode.allTipsNamed : NNode α → Bool
  | .mk [] i _ _ => i.isSome
  | .mk (c :: cs) _ _ _ => allTipsNamedL (c :: cs)
/-- The `allTipsNamed` over a list of sibling subtrees. -/
def allTipsNamedL : List (NNode α) → Bool
  | [] => true
  | c :: cs => NNode.allTipsNamed c && allTipsNamedL cs
end

/-! ## src/parsers.rs and src/main.rs -/

/-- The per-line core of `parse_newick_partitioned` of parsers.rs (file I/O
and partition-number parsing excluded): trims the line, asserts the trailing
`';'` before any scanning begins (`assert!(tree_line.ends_with(';'))`), then
builds the tree from the Newick string. -/
def parse_line (p : Nat) (line : String) : Except String (NTree α) :=
  let t := trimChars line.data
  if t.getLast? = some ';' then
    NTree.build_from_newick (NTree.new p (String.mk t))
  else .error "Incorrect Newick tree format, missing trailing ';'"

/-- Key lookup in the map models (`HashMap::get` / `get_mut`). -/
def hmLookup {β : Type} : List (String × β) → String → Option β
  | [], _ => none
  | (k', v') :: rest, k => if k' = k then some v' else hmLookup rest k

/-- In-place update of the (unique) entry holding key `k`
(`HashMap::get_mut` followed by a write through the reference). -/
def hmUpdate {β : Type} : List (String × β) → String → (β → β) →
    List (String × β)
  | [], _, _ => []
  | (k', v') :: rest, k, f =>
    if k' = k then (k', f v') :: rest else (k', v') :: hmUpdate rest k f

/-- One step of the assembly loop of main.rs (lines 114-125): append the
sequence's symbols to an existing id's accumulator, or start a new entry. -/
def assembleStep (acc : List (String × List Nat)) (kv : String × Sequence α) :
    List (String × List Nat) :=
  match hmLookup acc kv.1 with
  | some _ => hmUpdate acc kv.1 (fun o => o ++ kv.2.nucleotides)
  | none => acc ++ [(kv.1, kv.2.nucleotides)]

/-- The merge step of main.rs: fold the per-tree result maps, in tree
(partition) order, into the shared assembled map. -/
def assemble (hs : List (List (String × Sequence α))) :
    List (String × List Nat) :=
  hs.foldl (fun acc h => h.foldl assembleStep acc) []

/-! ## Malformedness detectors

Executable classifiers of the malformed-input kinds named by the spec,
defined over the raw string: an unbalanced-parenthesis scan tracking only
the parent-stack depth, and a bad-branch-field scan tracking only the text
buffer and the read flag.  Lemmas below relate them to the full parser. -/

/-- Depth scan: `true` iff, scanning up to the first `';'`, a `','` or `')'`
occurs at parenthesis depth 0 (empty parent stack), or the scan ends with a
positive depth (non-empty parent stack). -/
def ubScan : List Char → Nat → Bool
  | [], d => d ≠ 0
  | c :: cs, d =>
    if c = '(' then ubScan cs (d + 1)
    else if c = ',' then (if d = 0 then true else ubScan cs d)
    else if c = ')' then (if d = 0 then true else ubScan cs (d - 1))
    else if c = ';' then d ≠ 0
    else ubScan cs d

/-- Branch-field scan: mirrors the parser's buffer and read flag only, and
reports `true` iff some field finalized while reading a branch length
(flag 2) holds text that does not parse as a number. -/
def bbScan : List Char → List Char → Nat → Bool
  | [], _, _ => false
  | c :: cs, buf, flag =>
    if c = '(' then bbScan cs buf flag
    else if c = ',' ∨ c = ')' then
      if flag = 2 ∧ parseFloat (trimChars buf) = none then true
      else bbScan cs [] 1
    else if c = ':' then
      if flag = 2 ∧ parseFloat (trimChars buf) = none then true
      else bbScan cs [] 2
    else if c = ';' then
      decide (flag = 2 ∧ parseFloat (trimChars buf) = none)
    else bbScan cs (buf ++ [c]) flag

/-! ## Well-formed Newick inputs

A generative model of the well-formed Newick strings of the spec: a tree of
labeled nodes with textual branch-length fields, serialized exactly in the
grammar the parser consumes.  Used to state the parser round-trip claim. -/

mutual
/-- A non-root Newick node: a label, a branch-length text, children. -/
inductive STree : Type where
  | node (id : String) (branch : String) (children : SForest)
/-- A list of sibling Newick nodes. -/
inductive SForest : Type where
  | nil
  | cons (hd : STree) (tl : SForest)
end

mutual
/-- Serialization of a non-root node: `children-group id : branch`. -/
def STree.ser : STree → List Char
  | .node i br f => SForest.serKids f ++ i.data ++ ':' :: br.data
  termination_by t => sizeOf t
/-- Serialization of a (possibly empty) children group in parentheses. -/
def SForest.serKids : SForest → List Char
  | .nil => []
  | .cons t ts => '(' :: serInner t ts ++ [')']
  termination_by f => sizeOf f
/-- Comma-separated serialization of a non-empty sibling list. -/
def serInner : STree → SForest → List Char
  | t, .nil => STree.ser t
  | t, .cons t2 ts => STree.ser t ++ ',' :: serInner t2 ts
  termination_by t ts => sizeOf t + sizeOf ts
end

/-- Serialization of a whole Newick line: the root's children group, the
root label, and the trailing `';'`. -/
def rootSer (i : String) (f : SForest) : List Char :=
  SForest.serKids f ++ i.data ++ [';']

/-- A character that the parser treats as plain text (goes to the buffer)
and that `str::trim` leaves in place. -/
def plainChar (c : Char) : Bool :=
  !(c = '(' || c = ')' || c = ',' || c = ':' || c = ';' || c.isWhitespace)

/-- A label made of plain characters. -/
def plainStr (s : String) : Bool := s.data.all plainChar

mutual
/-- Well-formedness of a non-root node: a non-empty plain label, a plain
numeric branch-length text, and well-formed children. -/
def STree.wf : STree → Bool
  | .node i br f =>
    plainStr i && !i.data.isEmpty && plainStr br &&
      (parseFloat br.data).isSome && SForest.wf f
/-- Well-formedness of a sibling list. -/
def SForest.wf : SForest → Bool
  | .nil => true
  | .cons t ts => STree.wf t && SForest.wf ts
end

mutual
/-- Number of nodes of a non-root subtree. -/
def STree.count : STree → Nat
  | .node _ _ f => 1 + SForest.count f
/-- Number of nodes of a sibling list. -/
def SForest.count : SForest → Nat
  | .nil => 0
  | .cons t ts => STree.count t + SForest.count ts
end

mutual
/-- The `NNode` a well-formed node parses to. -/
def STree.build : STree → NNode α
  | .node i br f =>
    .mk (SForest.buildL f) (some i) (((parseFloat br.data).getD 0 : ℚ) : α) none
/-- The `NNode` list a well-formed sibling list parses to. -/
def SForest.buildL : SForest → List (NNode α)
  | .nil => []
  | .cons t ts => STree.build t :: SForest.buildL ts
end

mutual
/-- Structural size of a non-root node, for strong induction. -/
def STree.ssize : STree → Nat
  | .node _ _ f => 1 + SForest.ssize f
/-- Structural size of a sibling list. -/
def SForest.ssize : SForest → Nat
  | .nil => 0
  | .cons t ts => STree.ssize t + SForest.ssize ts
end

/-! ## General lemmas about the embedded operations -/

/-- Every row of the transition matrix computed inside `HKY::mutate` sums to
the total of the four stationary frequencies, for any exponential, `kappa`,
`scale` and branch length, as long as neither frequency pair sums to zero. -/
theorem trow_sum (expf : α → α) (pa pg pc pt k s v : α) (ba bg bc bt : Nat)
    (hag : pa + pg ≠ 0) (hct : pc + pt ≠ 0) (i : Fin 4) :
    ((HKY.new pa pg pc pt ba bg bc bt k s).trow expf v i).sum =
      pa + pg + pc + pt := by
  fin_cases i <;>
    simp only [HKY.trow, HKY.new, Matrix.cons_val_zero, Matrix.cons_val_one,
      Matrix.head_cons, Matrix.cons_val_two, Matrix.tail_cons,
      Matrix.cons_val_three, List.sum_cons, List.sum_nil, Fin.isValue] <;>
    field_simp <;> ring

/-- The cumulative walk falls through when the draw is at least the total
weight and all weights are non-negative. -/
theorem walkChoose_none (l : List (Nat × α)) (r : α)
    (hnn : ∀ p ∈ l, 0 ≤ p.2) (hr : (l.map Prod.snd).sum ≤ r) :
    walkChoose l r = none := by
  induction l generalizing r with
  | nil => simp [walkChoose]
  | cons p rest ih =>
    match p with
    | (c, f) =>
      have hf : 0 ≤ f := hnn (c, f) (by simp)
      have hrest : 0 ≤ (rest.map Prod.snd).sum :=
        List.sum_nonneg (by
          intro x hx
          obtain ⟨q, hq, rfl⟩ := List.mem_map.mp hx
          exact hnn q (by simp [hq]))
      simp only [List.map_cons, List.sum_cons] at hr
      have hnlt : ¬ r < f := by push_neg; linarith
      simp only [walkChoose, if_neg hnlt]
      exact ih (r - f) (fun q hq => hnn q (by simp [hq])) (by linarith)

/-- The cumulative walk selects an entry of the table when the weights are
positive, the table is non-empty and the draw is below the total weight. -/
theorem walkChoose_some (l : List (Nat × α)) (r : α)
    (hpos : ∀ p ∈ l, 0 < p.2) (hne : l ≠ [])
    (hr : r < (l.map Prod.snd).sum) :
    ∃ c, walkChoose l r = some c ∧ c ∈ l.map Prod.fst := by
  induction l generalizing r with
  | nil => exact absurd rfl hne
  | cons p rest ih =>
    match p with
    | (c, f) =>
      by_cases hlt : r < f
      · exact ⟨c, by simp [walkChoose, hlt], by simp⟩
      · cases hrest : rest with
        | nil =>
          subst hrest
          simp only [List.map_cons, List.map_nil, List.sum_cons,
            List.sum_nil, add_zero] at hr
          exact absurd hr hlt
        | cons q qs =>
          rw [← hrest]
          simp only [List.map_cons, List.sum_cons] at hr
          obtain ⟨c', hc', hmem⟩ :=
            ih (fun q hq => hpos q (by simp [hq])) (by simp [hrest]) (r := r - f)
              (by linarith)
          exact ⟨c', by simp [walkChoose, hlt, hc'], by simp [hmem]⟩

/-- A successful cumulative walk always returns a code present in the
table. -/
theorem walkChoose_mem (l : List (Nat × α)) (r : α) (c : Nat)
    (h : walkChoose l r = some c) : c ∈ l.map Prod.fst := by
  induction l generalizing r with
  | nil => simp [walkChoose] at h
  | cons p rest ih =>
    match p with
    | (b, f) =>
      by_cases hlt : r < f
      · simp only [walkChoose, if_pos hlt, Option.some.injEq] at h
        simp [h]
      · simp only [walkChoose, if_neg hlt] at h
        simpa using Or.inr (ih (r - f) h)

/-- Every symbol of a successful `appendGo` run is either from the starting
accumulator or a code of the frequency table. -/
theorem appendGo_mem (ft : List (Nat × α)) (d : Nat → α) (i0 l : Nat)
    (acc ns : List Nat) (h : appendGo ft d i0 l acc = Except.ok ns) :
    ∀ c ∈ ns, c ∈ acc ∨ c ∈ ft.map Prod.fst := by
  induction l generalizing i0 acc with
  | zero =>
    simp only [appendGo, Except.ok.injEq] at h
    subst h
    exact fun c hc => Or.inl hc
  | succ l ih =>
    simp only [appendGo] at h
    match hs : Sequence.sample ft (d i0) with
    | .error e => simp only [hs] at h; exact absurd h (by simp)
    | .ok c0 =>
      simp only [hs] at h
      intro c hc
      rcases ih (i0 + 1) (acc ++ [c0]) h c hc with hin | hin
      · rcases List.mem_append.mp hin with h1 | h1
        · exact Or.inl h1
        · have hcc : c = c0 := by simpa using h1
          match ho : walkChoose ft (d i0) with
          | none => rw [Sequence.sample, ho] at hs; exact absurd hs (by simp)
          | some c' =>
            rw [Sequence.sample, ho] at hs
            have hc' : c' = c0 := by simpa using hs
            rw [hcc, ← hc']
            exact Or.inr (walkChoose_mem ft (d i0) c' ho)
      · exact Or.inr hin

/-- Every symbol of a `Sequence` built by `Sequence::new` is a code of its
frequency table. -/
theorem sequence_new_mem (t : List (Nat × α)) (l : Nat) (d : Nat → α)
    (s : Sequence α) (h : Sequence.new t l d = Except.ok s) :
    ∀ c ∈ s.nucleotides, c ∈ t.map Prod.fst := by
  rw [Sequence.new] at h
  match hcf : get_cumulative t with
  | .error e => simp only [hcf] at h; exact absurd h (by simp)
  | .ok cf =>
    simp only [hcf, Sequence.append] at h
    match ha : appendGo t d 0 l [] with
    | .error e => simp only [ha] at h; exact absurd h (by simp)
    | .ok ns =>
      simp only [ha, Except.ok.injEq] at h
      subst h
      intro c hc
      rcases appendGo_mem t d 0 l [] ns ha c hc with h1 | h1
      · simp at h1
      · exact h1

/-- Every symbol produced by the mutation loop of `HKY::mutate` is one of
the model's four configured codes. -/
theorem mutGo_mem (expf : α → α) (m : HKY α) (v : α) (d : Nat → α)
    (l : List Nat) (i : Nat) (ns : List Nat)
    (h : mutGo expf m v d l i = Except.ok ns) :
    ∀ c ∈ ns, c ∈ m.basesList := by
  induction l generalizing i ns with
  | nil =>
    simp only [mutGo, Except.ok.injEq] at h
    subst h
    simp
  | cons n rest ih =>
    simp only [mutGo] at h
    match hrow : HKY.rowOf m n with
    | .error e => simp only [hrow] at h; exact absurd h (by simp)
    | .ok row =>
      simp only [hrow] at h
      match hcb : HKY.chooseBase m.basesList (HKY.trow expf m v row) (d i) with
      | .error e => simp only [hcb] at h; exact absurd h (by simp)
      | .ok nb =>
        simp only [hcb] at h
        match hgo : mutGo expf m v d rest (i + 1) with
        | .error e => simp only [hgo] at h; exact absurd h (by simp)
        | .ok ns' =>
          simp only [hgo, Except.ok.injEq] at h
          have hns : ns = nb :: ns' := h.symm
          subst hns
          intro c hc
          rcases List.mem_cons.mp hc with h1 | h1
          · subst h1
            rw [HKY.chooseBase] at hcb
            match hw : walkChoose (m.basesList.zip (HKY.trow expf m v row)) (d i) with
            | none => simp only [hw] at hcb; exact absurd hcb (by simp)
            | some b =>
              simp only [hw] at hcb
              have hb : b ≠ 0 := by
                by_contra hb0
                subst hb0
                simp at hcb
              rw [if_neg hb] at hcb
              have hbc : b = c := by simpa using hcb
              subst hbc
              have hmem := walkChoose_mem _ _ _ hw
              obtain ⟨p, hp, hp1⟩ := List.mem_map.mp hmem
              have hzip := List.of_mem_zip hp
              rw [← hp1]
              exact hzip.1
          · exact ih (i + 1) ns' hgo c h1

/-! ## Claims: transition-matrix row sums (C2) -/

/-- C2, corrected.  For every model built by `HKY::new` from positive base
frequencies that sum to 1, and every branch length `v ≥ 0`, each of the four
rows of the transition matrix computed inside `mutate` sums to 1 in exact
real arithmetic.  (As frozen, without the sum-to-1 hypothesis, the claim is
false: see the counterexample.) -/
theorem claim2_row_stochastic (pa pg pc pt k s v : ℝ) (ba bg bc bt : Nat)
    (hpa : 0 < pa) (hpg : 0 < pg) (hpc : 0 < pc) (hpt : 0 < pt)
    (hsum : pa + pg + pc + pt = 1) (hv : 0 ≤ v) (i : Fin 4) :
    ((HKY.new pa pg pc pt ba bg bc bt k s).trow Real.exp v i).sum = 1 := by
  rw [trow_sum Real.exp pa pg pc pt k s v ba bg bc bt
    (by positivity) (by positivity) i]
  exact hsum

/-- Witness for C2 at the program's default model (frequencies 1/4 each,
arbitrary kappa 2) and branch length 1/2. -/
theorem claim2_row_stochastic_witness :
    (0 < (1/4 : ℝ)) ∧
      ((HKY.new (1/4) (1/4) (1/4) (1/4) 65 71 67 84 2 1 :
        HKY ℝ).trow Real.exp (1/2) 0).sum = 1 :=
  ⟨by norm_num,
   claim2_row_stochastic (1/4) (1/4) (1/4) (1/4) 2 1 (1/2) 65 71 67 84
     (by norm_num) (by norm_num) (by norm_num) (by norm_num) (by norm_num)
     (by norm_num) 0⟩

/-- Counterexample to C2 as frozen: with the positive frequencies
(1, 1, 1, 1), which `HKY::new` accepts, the A-row of the matrix at `v = 0`
sums to 4, not 1. -/
theorem claim2_row_stochastic_cex :
    ((HKY.new (1 : ℝ) 1 1 1 65 71 67 84 1 1).trow Real.exp 0 0).sum ≠ 1 := by
  rw [trow_sum Real.exp 1 1 1 1 1 1 0 65 71 67 84 (by norm_num) (by norm_num) 0]
  norm_num

/-! ## Claims: sampling-walk fall-through (C9) -/

/-- C9, corrected.  When the cumulative weighted-sampling walk falls through
without selecting a symbol (draw at least the total weight, weights
non-negative), both walks of the source are a hard failure: `Sequence::sample`
hits `assert!(false, ..)` and the row walk in `HKY::mutate` trips
`assert!(new_base != 0, ..)`.  There is no clamp to the last candidate. -/
theorem claim9_walk_fall_through (ft : List (Nat × α)) (bases : List Nat)
    (row : List α) (r r' : α)
    (hnn : ∀ p ∈ ft, 0 ≤ p.2) (hr : (ft.map Prod.snd).sum ≤ r)
    (hnn' : ∀ p ∈ bases.zip row, 0 ≤ p.2)
    (hr' : ((bases.zip row).map Prod.snd).sum ≤ r') :
    Sequence.sample ft r =
        Except.error "Something went terribly wrong in Sequence's sampler" ∧
      HKY.chooseBase bases row r' =
        Except.error "Something went terribly wrong in Mutator's transition choice" := by
  constructor
  · rw [Sequence.sample, walkChoose_none ft r hnn hr]
  · rw [HKY.chooseBase, walkChoose_none (bases.zip row) r' hnn' hr']

/-- Witness for C9 on the uniform 4-entry table with an out-of-range draw. -/
theorem claim9_walk_fall_through_witness :
    Sequence.sample [(65, (1 : ℚ)/4), (71, 1/4), (67, 1/4), (84, 1/4)] 2 =
        Except.error "Something went terribly wrong in Sequence's sampler" ∧
      HKY.chooseBase [65, 71, 67, 84] [(1 : ℚ)/4, 1/4, 1/4, 1/4] 2 =
        Except.error "Something went terribly wrong in Mutator's transition choice" :=
  claim9_walk_fall_through
    [(65, (1 : ℚ)/4), (71, 1/4), (67, 1/4), (84, 1/4)]
    [65, 71, 67, 84] [(1 : ℚ)/4, 1/4, 1/4, 1/4] 2 2
    (by intro p hp; fin_cases hp <;> norm_num)
    (by norm_num)
    (by intro p hp; fin_cases hp <;> norm_num)
    (by norm_num [List.zip])

/-- Counterexample to C9 as frozen: on a fall-through neither walk falls
back to the last candidate symbol (code 84); both return the assertion
error. -/
theorem claim9_walk_fall_through_cex :
    Sequence.sample [(65, (1 : ℚ)/4), (71, 1/4), (67, 1/4), (84, 1/4)] 2 ≠
        Except.ok 84 ∧
      HKY.chooseBase [65, 71, 67, 84] [(1 : ℚ)/4, 1/4, 1/4, 1/4] 2 ≠
        Except.ok 84 ∧
      Sequence.sample [(65, (1 : ℚ)/4), (71, 1/4), (67, 1/4), (84, 1/4)] 2 =
        Except.error "Something went terribly wrong in Sequence's sampler" ∧
      HKY.chooseBase [65, 71, 67, 84] [(1 : ℚ)/4, 1/4, 1/4, 1/4] 2 =
        Except.error "Something went terribly wrong in Mutator's transition choice" := by
  refine ⟨?_, ?_, ?_, ?_⟩ <;>
    norm_num [Sequence.sample, HKY.chooseBase, walkChoose, List.zip] <;>
    exact fun h => Except.noConfusion h

/-! ## Claims: sequence alphabet closure (C3) -/

/-- C3, confirmed.  Every symbol of a `Sequence` returned by `HKY::random`
or by `HKY::mutate` is one of the model's four configured base codes. -/
theorem claim3_alphabet_closure :
    (∀ (m : HKY α) (l : Nat) (d : Nat → α) (s : Sequence α),
       HKY.random m l d = Except.ok s →
       ∀ c ∈ s.nucleotides, c ∈ m.basesList) ∧
    (∀ (expf : α → α) (m : HKY α) (s : Sequence α) (v : α) (d : Nat → α)
       (s' : Sequence α),
       HKY.mutate expf m s v d = Except.ok s' →
       ∀ c ∈ s'.nucleotides, c ∈ m.basesList) := by
  constructor
  · intro m l d s h c hc
    have := sequence_new_mem m.table l d s h c hc
    simpa [HKY.table, HKY.basesList] using this
  · intro expf m s v d s' h c hc
    rw [HKY.mutate] at h
    match hgo : mutGo expf m v d s.nucleotides 0 with
    | .error e => simp only [hgo] at h; exact absurd h (by simp)
    | .ok ns =>
      simp only [hgo, Sequence.from_vec] at h
      match hcf : get_cumulative m.table with
      | .error e => simp only [hcf] at h; exact absurd h (by simp)
      | .ok cf =>
        simp only [hcf, Except.ok.injEq] at h
        have hs' : s'.nucleotides = ns := by rw [← h]
        rw [hs'] at hc
        exact mutGo_mem expf m v d s.nucleotides 0 ns hgo c hc

/-- Witness for C3: a concrete one-site `random` draw and a concrete
one-site `mutate` both land in the model's alphabet. -/
theorem claim3_alphabet_closure_witness :
    65 ∈ (HKY.new (1:ℚ) 1 1 1 65 71 67 84 1 1).basesList ∧
      67 ∈ (HKY.new (1:ℚ) 1 1 1 65 71 67 84 1 1).basesList := by
  constructor
  · refine (claim3_alphabet_closure (α := ℚ)).1
      (HKY.new 1 1 1 1 65 71 67 84 1 1) 1 (fun _ => 1/2)
      { nucleotides := [65], size := 1,
        freq_table := [(65,1),(71,1),(67,1),(84,1)], max_freq := 4 }
      ?_ 65 (by simp)
    norm_num [HKY.random, Sequence.new, Sequence.append, appendGo,
      Sequence.sample, walkChoose, get_cumulative, cumGo, HKY.table, HKY.new,
      Matrix.cons_val_zero, Matrix.cons_val_one, Matrix.head_cons,
      Matrix.cons_val_two, Matrix.tail_cons, Matrix.cons_val_three]
  · refine (claim3_alphabet_closure (α := ℚ)).2
      (fun _ => 1) (HKY.new 1 1 1 1 65 71 67 84 1 1)
      { nucleotides := [84], size := 1,
        freq_table := [(65,1),(71,1),(67,1),(84,1)], max_freq := 4 }
      7 (fun _ => 1/2)
      { nucleotides := [67], size := 1,
        freq_table := [(65,(1:ℚ)),(71,1),(67,1),(84,1)], max_freq := 4 }
      ?_ 67 (by simp)
    norm_num [HKY.mutate, mutGo, HKY.rowOf, HKY.chooseBase, walkChoose,
      HKY.trow, HKY.table, HKY.basesList, Sequence.from_vec, get_cumulative,
      cumGo, HKY.new, List.zip,
      Matrix.cons_val_zero, Matrix.cons_val_one, Matrix.head_cons,
      Matrix.cons_val_two, Matrix.tail_cons, Matrix.cons_val_three]

/-! ## Claims: mutate and the frequency table (C4) -/

/-- C4, corrected.  A successful `HKY::mutate` returns a new `Sequence`
whose frequency table is the model's own table (bases paired with
`nuc_frequencies`), not a copy of the input's table; the two coincide
exactly when the input carries the model's table, as all sequences produced
by the same model do.  The input is not modified (mutate reads the parent
through a shared reference and builds its result from a clone, which the
pure embedding renders by `mutate` being a function of `s`). -/
theorem claim4_mutate_freq_table (expf : α → α) (m : HKY α) (s : Sequence α)
    (v : α) (d : Nat → α) (s' : Sequence α)
    (h : HKY.mutate expf m s v d = Except.ok s') :
    s'.freq_table = m.table := by
  rw [HKY.mutate] at h
  match hgo : mutGo expf m v d s.nucleotides 0 with
  | .error e => simp only [hgo] at h; exact absurd h (by simp)
  | .ok ns =>
    simp only [hgo, Sequence.from_vec] at h
    match hcf : get_cumulative m.table with
    | .error e => simp only [hcf] at h; exact absurd h (by simp)
    | .ok cf =>
      simp only [hcf, Except.ok.injEq] at h
      rw [← h]

/-- Counterexample to C4 as frozen: mutating, under the program's
`Real.exp` model, an input sequence whose frequency table differs from the
model's, succeeds and returns a sequence whose frequency table is not the
input's. -/
theorem claim4_mutate_freq_table_cex :
    HKY.mutate Real.exp (HKY.new (1:ℝ) 1 1 1 65 71 67 84 1 1)
        { nucleotides := [65], size := 1,
          freq_table := [(65,2),(71,2),(67,2),(84,2)], max_freq := 8 }
        0 (fun _ => 1/2) =
      Except.ok { nucleotides := [65], size := 1,
                  freq_table := [(65,1),(71,1),(67,1),(84,1)],
                  max_freq := 4 } ∧
    ({ nucleotides := [65], size := 1,
       freq_table := [(65,1),(71,1),(67,1),(84,1)], max_freq := 4 } :
         Sequence ℝ).freq_table ≠
      ({ nucleotides := [65], size := 1,
         freq_table := [(65,2),(71,2),(67,2),(84,2)], max_freq := 8 } :
           Sequence ℝ).freq_table := by
  constructor
  · norm_num [HKY.mutate, mutGo, HKY.rowOf, HKY.chooseBase, walkChoose,
      HKY.trow, HKY.table, HKY.basesList, Sequence.from_vec, get_cumulative,
      cumGo, HKY.new, List.zip, Real.exp_zero,
      Matrix.cons_val_zero, Matrix.cons_val_one, Matrix.head_cons,
      Matrix.cons_val_two, Matrix.tail_cons, Matrix.cons_val_three]
  · norm_num

/-- Witness for C4 (amended form) at a concrete one-site mutate. -/
theorem claim4_mutate_freq_table_witness :
    ({ nucleotides := [67], size := 1,
       freq_table := [(65,(1:ℚ)),(71,1),(67,1),(84,1)], max_freq := 4 } :
        Sequence ℚ).freq_table =
      (HKY.new (1:ℚ) 1 1 1 65 71 67 84 1 1).table :=
  claim4_mutate_freq_table (α := ℚ) (fun _ => 1)
    (HKY.new 1 1 1 1 65 71 67 84 1 1)
    { nucleotides := [84], size := 1,
      freq_table := [(65,1),(71,1),(67,1),(84,1)], max_freq := 4 }
    7 (fun _ => 1/2)
    { nucleotides := [67], size := 1,
      freq_table := [(65,(1:ℚ)),(71,1),(67,1),(84,1)], max_freq := 4 }
    (by norm_num [HKY.mutate, mutGo, HKY.rowOf, HKY.chooseBase, walkChoose,
      HKY.trow, HKY.table, HKY.basesList, Sequence.from_vec, get_cumulative,
      cumGo, HKY.new, List.zip,
      Matrix.cons_val_zero, Matrix.cons_val_one, Matrix.head_cons,
      Matrix.cons_val_two, Matrix.tail_cons, Matrix.cons_val_three])

/-- Whether an `Except` is an error (a panic in the source). -/
def isErr {ε β : Type} : Except ε β → Bool
  | .error _ => true
  | .ok _ => false

/-- The `cumGo` succeeds on a table of positive weights and returns the total. -/
theorem cumGo_ok (l : List (Nat × α)) (acc : α) (hpos : ∀ p ∈ l, 0 < p.2) :
    cumGo l acc = Except.ok (acc + (l.map Prod.snd).sum) := by
  induction l generalizing acc with
  | nil => simp [cumGo]
  | cons p rest ih =>
    match p with
    | (c, f) =>
      have hf : 0 < f := hpos (c, f) (by simp)
      simp only [cumGo, if_pos hf, List.map_cons, List.sum_cons]
      rw [ih (acc + f) (fun q hq => hpos q (by simp [hq]))]
      ring_nf

/-- The `get_cumulative` succeeds on a non-empty table of positive weights. -/
theorem get_cumulative_ok (l : List (Nat × α)) (hne : l ≠ [])
    (hpos : ∀ p ∈ l, 0 < p.2) :
    get_cumulative l = Except.ok ((l.map Prod.snd).sum) := by
  match l with
  | [] => exact absurd rfl hne
  | p :: rest =>
    rw [get_cumulative, cumGo_ok (p :: rest) 0 hpos]
    ring_nf

/-- The `appendGo` succeeds when the table is non-empty with positive weights
and every draw is below the total weight (the rng range contract). -/
theorem appendGo_ok (ft : List (Nat × α)) (d : Nat → α)
    (hpos : ∀ p ∈ ft, 0 < p.2) (hne : ft ≠ [])
    (hd : ∀ i, d i < (ft.map Prod.snd).sum) (i0 l : Nat) (acc : List Nat) :
    ∃ ns, appendGo ft d i0 l acc = Except.ok ns := by
  induction l generalizing i0 acc with
  | zero => exact ⟨acc, by simp [appendGo]⟩
  | succ l ih =>
    obtain ⟨c, hc, hmem⟩ := walkChoose_some ft (d i0) hpos hne (hd i0)
    obtain ⟨ns, hns⟩ := ih (i0 + 1) (acc ++ [c])
    refine ⟨ns, ?_⟩
    simp only [appendGo, Sequence.sample, hc, hns]

/-- The `Sequence::new` succeeds under the same conditions. -/
theorem sequence_new_ok (t : List (Nat × α)) (l : Nat) (d : Nat → α)
    (hpos : ∀ p ∈ t, 0 < p.2) (hne : t ≠ [])
    (hd : ∀ i, d i < (t.map Prod.snd).sum) :
    ∃ s, Sequence.new t l d = Except.ok s := by
  obtain ⟨ns, hns⟩ := appendGo_ok t d hpos hne hd 0 l []
  refine ⟨{ nucleotides := ns, size := 0 + l, freq_table := t,
            max_freq := (t.map Prod.snd).sum }, ?_⟩
  rw [Sequence.new, get_cumulative_ok t hne hpos]
  simp only [Sequence.append, hns]

/-! ## Claims: create_ancestral (C10) -/

/-- C10, confirmed.  Under the model interface contract (positive
frequencies) and the rng range contract (each draw below the table total),
`create_ancestral` fails exactly when the tree's root is absent; when a root
is present it succeeds, unconditionally replacing any previously assigned
root sequence with a fresh `random` sequence -- in particular re-invocation
on an already-seeded root is not an error, unlike re-invoking
`build_from_newick`, which always fails on a built tree. -/
theorem claim10_create_ancestral (t : NTree α) (m : HKY α) (d : Nat → α)
    (hpos : ∀ p ∈ m.table, 0 < p.2)
    (hd : ∀ i, d i < (m.table.map Prod.snd).sum) :
    (isErr (t.create_ancestral m d) = true ↔ t.root = none) ∧
    (∀ r, t.root = some r →
      ∃ sq, HKY.random m t.partition d = Except.ok sq ∧
        t.create_ancestral m d =
          Except.ok { t with root := some (r.set_sequence (some sq)) }) ∧
    (∀ r, t.root = some r →
      t.build_from_newick = Except.error "Tree already built!") := by
  have hok : ∀ r, t.root = some r →
      ∃ sq, HKY.random m t.partition d = Except.ok sq ∧
        t.create_ancestral m d =
          Except.ok { t with root := some (r.set_sequence (some sq)) } := by
    intro r hr
    obtain ⟨sq, hsq⟩ := sequence_new_ok m.table t.partition d hpos
      (by simp [HKY.table]) hd
    refine ⟨sq, ?_, ?_⟩
    · rw [HKY.random, hsq]
    · rw [NTree.create_ancestral, hr, HKY.random, hsq]
  refine ⟨?_, hok, ?_⟩
  · constructor
    · intro herr
      match hr : t.root with
      | none => rfl
      | some r =>
        obtain ⟨sq, _, hcr⟩ := hok r hr
        rw [hcr] at herr
        simp [isErr] at herr
    · intro hr
      rw [NTree.create_ancestral, hr]
      simp [isErr]
  · intro r hr
    rw [NTree.build_from_newick, hr]
    simp

/-- Witness for C10: a concrete tree whose root already has a sequence:
re-seeding is not an error, while re-building is. -/
theorem claim10_create_ancestral_witness :
    isErr (NTree.create_ancestral (α := ℚ)
        { root := some (NNode.mk [] (some "A") 0
            (some { nucleotides := [84], size := 1,
                    freq_table := [(84,1)], max_freq := 1 })),
          size := 1, partition := 2, build_str := "" }
        (HKY.new 1 1 1 1 65 71 67 84 1 1) (fun _ => 1/2)) = false ∧
      NTree.build_from_newick (α := ℚ)
        { root := some (NNode.mk [] (some "A") 0
            (some { nucleotides := [84], size := 1,
                    freq_table := [(84,1)], max_freq := 1 })),
          size := 1, partition := 2, build_str := "" } =
        Except.error "Tree already built!" := by
  have h := claim10_create_ancestral (α := ℚ)
    { root := some (NNode.mk [] (some "A") 0
        (some { nucleotides := [84], size := 1,
                freq_table := [(84,1)], max_freq := 1 })),
      size := 1, partition := 2, build_str := "" }
    (HKY.new 1 1 1 1 65 71 67 84 1 1) (fun _ => 1/2)
    (by intro p hp
        fin_cases hp <;>
          norm_num [HKY.table, HKY.new, Matrix.cons_val_zero,
            Matrix.cons_val_one, Matrix.head_cons, Matrix.cons_val_two,
            Matrix.tail_cons, Matrix.cons_val_three])
    (by intro i
        norm_num [HKY.table, HKY.new, Matrix.cons_val_zero,
          Matrix.cons_val_one, Matrix.head_cons, Matrix.cons_val_two,
          Matrix.tail_cons, Matrix.cons_val_three])
  constructor
  · rcases hb : isErr (NTree.create_ancestral (α := ℚ)
        { root := some (NNode.mk [] (some "A") 0
            (some { nucleotides := [84], size := 1,
                    freq_table := [(84,1)], max_freq := 1 })),
          size := 1, partition := 2, build_str := "" }
        (HKY.new 1 1 1 1 65 71 67 84 1 1) (fun _ => 1/2)) with _ | _
    · rfl
    · exact absurd (h.1.mp hb) (by simp)
  · exact h.2.2 _ rfl


/-- Lookup after an in-place value update at key `k`. -/
theorem hmLookup_update {β : Type} (acc : List (String × β)) (k : String)
    (f : β → β) (a : String) :
    hmLookup (hmUpdate acc k f) a =
      if a = k then (hmLookup acc a).map f else hmLookup acc a := by
  induction acc with
  | nil => simp [hmLookup, hmUpdate]
  | cons p rest ih =>
    obtain ⟨k', v'⟩ := p
    by_cases hk : k' = k
    · subst hk
      by_cases ha : k' = a
      · subst ha
        simp [hmUpdate, hmLookup]
      · rw [hmUpdate, if_pos rfl, hmLookup, if_neg ha, hmLookup, if_neg ha,
          if_neg (show ¬ a = k' from fun h => ha h.symm)]
    · by_cases ha : k' = a
      · subst ha
        rw [hmUpdate, if_neg hk, hmLookup, if_pos rfl, hmLookup, if_pos rfl,
          if_neg (show ¬ k' = k from hk)]
      · rw [hmUpdate, if_neg hk, hmLookup, if_neg ha, hmLookup, if_neg ha, ih]

/-- Lookup after appending a fresh entry, when the key was absent. -/
theorem hmLookup_append_right {β : Type} (acc : List (String × β)) (k : String)
    (w : β) (a : String) (hnone : hmLookup acc a = none) :
    hmLookup (acc ++ [(k, w)]) a = if k = a then some w else none := by
  induction acc with
  | nil => simp [hmLookup]
  | cons p rest ih =>
    obtain ⟨k', v'⟩ := p
    simp only [hmLookup] at hnone ⊢
    by_cases ha : k' = a
    · simp [ha] at hnone
    · simp only [List.cons_append, hmLookup, if_neg ha] at hnone ⊢
      exact ih hnone

/-- Appending entries does not disturb a present key. -/
theorem hmLookup_append_left {β : Type} (acc tl : List (String × β))
    (a : String) (o : β) (hsome : hmLookup acc a = some o) :
    hmLookup (acc ++ tl) a = some o := by
  induction acc with
  | nil => simp [hmLookup] at hsome
  | cons p rest ih =>
    obtain ⟨k', v'⟩ := p
    simp only [hmLookup] at hsome ⊢
    by_cases ha : k' = a
    · simpa [ha] using hsome
    · simp only [List.cons_append, hmLookup, if_neg ha] at hsome ⊢
      exact ih hsome

/-- Effect of one assembly step on a lookup. -/
theorem assembleStep_lookup (acc : List (String × List Nat))
    (kv : String × Sequence α) (a : String) :
    hmLookup (assembleStep acc kv) a =
      if a = kv.1 then
        match hmLookup acc a with
        | some o => some (o ++ kv.2.nucleotides)
        | none => some kv.2.nucleotides
      else hmLookup acc a := by
  obtain ⟨k, v⟩ := kv
  rw [assembleStep]
  match hak : hmLookup acc k with
  | some o =>
    simp only
    rw [hmLookup_update acc k (fun o => o ++ v.nucleotides) a]
    by_cases ha : a = k
    · subst ha
      simp [hak]
    · simp [ha]
  | none =>
    simp only
    by_cases ha : a = k
    · subst ha
      rw [hmLookup_append_right acc a v.nucleotides a hak]
      simp [hak]
    · match haa : hmLookup acc a with
      | some o =>
        simp only [if_neg ha]
        exact hmLookup_append_left acc _ a o haa
      | none =>
        simp only [if_neg ha]
        rw [hmLookup_append_right acc k _ a haa,
          if_neg (fun hka => ha hka.symm)]

/-- A key outside the key list is absent. -/
theorem hmLookup_none_of_not_mem_keys {β : Type} (l : List (String × β))
    (a : String) (hnot : a ∉ l.map Prod.fst) : hmLookup l a = none := by
  induction l with
  | nil => rfl
  | cons p rest ih =>
    obtain ⟨k', v'⟩ := p
    simp only [List.map_cons, List.mem_cons] at hnot
    push_neg at hnot
    simp only [hmLookup, if_neg (fun h : k' = a => hnot.1 h.symm)]
    exact ih hnot.2

/-- Folding one per-tree result map (with distinct keys, as a `HashMap`
iteration yields) into the accumulator appends exactly that map's entry for
each key. -/
theorem fold_assembleStep_lookup (h : List (String × Sequence α))
    (acc : List (String × List Nat)) (a : String)
    (hnd : (h.map Prod.fst).Nodup) :
    hmLookup (h.foldl assembleStep acc) a =
      match hmLookup h a with
      | some v =>
        match hmLookup acc a with
        | some o => some (o ++ v.nucleotides)
        | none => some v.nucleotides
      | none => hmLookup acc a := by
  induction h generalizing acc with
  | nil => simp [hmLookup]
  | cons p rest ih =>
    obtain ⟨k, v⟩ := p
    simp only [List.map_cons, List.nodup_cons] at hnd
    simp only [List.foldl_cons]
    rw [ih (assembleStep acc (k, v)) hnd.2]
    rw [assembleStep_lookup acc (k, v) a]
    by_cases ha : a = k
    · subst ha
      have hrest : hmLookup rest a = none :=
        hmLookup_none_of_not_mem_keys rest a hnd.1
      rw [hrest]
      simp only [hmLookup, if_pos rfl]
      match hmLookup acc a with
      | some o => simp
      | none => simp
    · rw [hmLookup, if_neg (show ¬ k = a from fun hka => ha hka.symm),
        if_neg ha]

/-! ## Claims: multi-tree assembly order (C5) -/

/-- C5, confirmed.  For two per-tree result maps (distinct keys each, as
`HashMap` iteration yields) that both contain taxon `a` with sequences of
lengths 5 and 3, the merge step of main.rs assembles for `a` the
concatenation: length 8, first 5 symbols from the first tree's result, last
3 from the second's.  The merge consumes the per-tree maps in original
partition order, so the result is independent of the order in which the
trees were evolved. -/
theorem claim5_merge_order (m1 m2 : List (String × Sequence α)) (a : String)
    (s1 s2 : Sequence α)
    (h1 : (m1.map Prod.fst).Nodup) (h2 : (m2.map Prod.fst).Nodup)
    (hl1 : hmLookup m1 a = some s1) (hl2 : hmLookup m2 a = some s2)
    (hlen1 : s1.nucleotides.length = 5) (hlen2 : s2.nucleotides.length = 3) :
    hmLookup (assemble [m1, m2]) a = some (s1.nucleotides ++ s2.nucleotides) ∧
    (s1.nucleotides ++ s2.nucleotides).length = 8 ∧
    (s1.nucleotides ++ s2.nucleotides).take 5 = s1.nucleotides ∧
    (s1.nucleotides ++ s2.nucleotides).drop 5 = s2.nucleotides := by
  refine ⟨?_, ?_, ?_, ?_⟩
  · rw [assemble]
    simp only [List.foldl_cons, List.foldl_nil]
    rw [fold_assembleStep_lookup m2 _ a h2, hl2,
      fold_assembleStep_lookup m1 [] a h1, hl1]
    simp [hmLookup]
  · simp [hlen1, hlen2]
  · rw [← hlen1, List.take_left]
  · rw [← hlen1, List.drop_left]


/-- Witness for C5 on concrete maps. -/
theorem claim5_merge_order_witness :
    hmLookup (assemble (α := ℚ)
        [[("A", { nucleotides := [1,2,3,4,5], size := 5,
                  freq_table := [(65,1)], max_freq := 1 }),
          ("X", { nucleotides := [9], size := 1,
                  freq_table := [(65,1)], max_freq := 1 })],
         [("A", { nucleotides := [6,7,8], size := 3,
                  freq_table := [(65,1)], max_freq := 1 })]]) "A" =
      some [1,2,3,4,5,6,7,8] := by
  have h := claim5_merge_order (α := ℚ)
    [("A", { nucleotides := [1,2,3,4,5], size := 5,
             freq_table := [(65,1)], max_freq := 1 }),
     ("X", { nucleotides := [9], size := 1,
             freq_table := [(65,1)], max_freq := 1 })]
    [("A", { nucleotides := [6,7,8], size := 3,
             freq_table := [(65,1)], max_freq := 1 })]
    "A"
    { nucleotides := [1,2,3,4,5], size := 5,
      freq_table := [(65,1)], max_freq := 1 }
    { nucleotides := [6,7,8], size := 3,
      freq_table := [(65,1)], max_freq := 1 }
    (by simp) (by simp)
    (by simp [hmLookup]) (by simp [hmLookup])
    (by simp) (by simp)
  simpa using h.1


omit [LinearOrderedField α] in
/-- Case analysis of a successful loop iteration. -/
theorem dfsVisit_ok_cases (mf : Sequence α → α → Except String (Sequence α))
    (cs : List (NNode α)) (i : Option String) (b : α)
    (sq pseq : Option (Sequence α)) (h h' : List (String × Sequence α))
    (entries : List (NNode α × Option (Sequence α)))
    (hv : dfsVisit mf (NNode.mk cs i b sq) pseq h = Except.ok (entries, h')) :
    ∃ s1, resolveSeq mf pseq b sq = Except.ok s1 ∧
      ((cs = [] ∧ ∃ nm, i = some nm ∧ entries = [] ∧
          h' = hmInsert h nm s1) ∨
       (cs ≠ [] ∧ entries = cs.reverse.map (fun ch => (ch, some s1)) ∧
          h' = h)) := by
  simp only [dfsVisit] at hv
  match hres : resolveSeq mf pseq b sq with
  | .error e => simp only [hres] at hv; exact absurd hv (by simp)
  | .ok s1 =>
    simp only [hres] at hv
    refine ⟨s1, rfl, ?_⟩
    match cs with
    | [] =>
      match i with
      | none => exact absurd hv (by simp)
      | some nm =>
        simp only [Except.ok.injEq, Prod.mk.injEq] at hv
        exact Or.inl ⟨rfl, nm, rfl, hv.1.symm, hv.2.symm⟩
    | c :: cs' =>
      simp only [Except.ok.injEq, Prod.mk.injEq] at hv
      exact Or.inr ⟨by simp, hv.1.symm, hv.2.symm⟩

omit [LinearOrderedField α] in
theorem dfsLoop_cons_err (mf : Sequence α → α → Except String (Sequence α))
    (n : NNode α) (pseq : Option (Sequence α))
    (rest : List (NNode α × Option (Sequence α)))
    (h0 : List (String × Sequence α)) (e : String)
    (hv : dfsVisit mf n pseq h0 = Except.error e) :
    dfsLoop mf ((n, pseq) :: rest) h0 = Except.error e := by
  rw [dfsLoop]
  match hv2 : dfsVisit mf n pseq h0 with
  | .error e' =>
    rw [hv] at hv2
    cases hv2
    rfl
  | .ok (entries, h') =>
    rw [hv] at hv2
    exact absurd hv2 (by simp)

omit [LinearOrderedField α] in
/-- Unfolding of one successful loop iteration. -/
theorem dfsLoop_cons_ok (mf : Sequence α → α → Except String (Sequence α))
    (n : NNode α) (pseq : Option (Sequence α))
    (rest entries : List (NNode α × Option (Sequence α)))
    (h0 h' : List (String × Sequence α))
    (hv : dfsVisit mf n pseq h0 = Except.ok (entries, h')) :
    dfsLoop mf ((n, pseq) :: rest) h0 = dfsLoop mf (entries ++ rest) h' := by
  rw [dfsLoop]
  match hv2 : dfsVisit mf n pseq h0 with
  | .error e' =>
    rw [hv] at hv2
    exact absurd hv2 (by simp)
  | .ok (entries2, h2) =>
    rw [hv] at hv2
    simp only [Except.ok.injEq, Prod.mk.injEq] at hv2
    rw [hv2.1, hv2.2]

/-- A sibling list with an unnamed tip contains a subtree with one. -/
theorem allTipsNamedL_false (cs : List (NNode α))
    (h : allTipsNamedL cs = false) : ∃ c ∈ cs, c.allTipsNamed = false := by
  induction cs with
  | nil => simp [allTipsNamedL] at h
  | cons c cs ih =>
    rw [allTipsNamedL, Bool.and_eq_false_iff] at h
    rcases h with h | h
    · exact ⟨c, by simp, h⟩
    · obtain ⟨c', hc', hn⟩ := ih h
      exact ⟨c', by simp [hc'], hn⟩

/-- If some entry on the work stack holds a subtree with an unnamed tip,
the DFS loop ends in an error (whatever the mutator and the other nodes
do). -/
theorem dfsLoop_err_of_unnamed (mf : Sequence α → α → Except String (Sequence α)) :
    ∀ N (stack : List (NNode α × Option (Sequence α)))
      (h0 : List (String × Sequence α)),
      stackWeight stack ≤ N →
      (∃ e ∈ stack, e.1.allTipsNamed = false) →
      isErr (dfsLoop mf stack h0) = true := by
  intro N
  induction N with
  | zero =>
    intro stack h0 hw hex
    obtain ⟨e, he, _⟩ := hex
    match stack, he with
    | (n, ps) :: rest, _ =>
      exfalso
      have := n.weight_pos
      simp only [stackWeight] at hw
      omega
  | succ N ih =>
    intro stack h0 hw hex
    obtain ⟨e, he, hbad⟩ := hex
    match stack, he, hw with
    | (n, ps) :: rest, he, hw =>
      rw [dfsLoop]
      match hv : dfsVisit mf n ps h0 with
      | .error e' => simp [isErr]
      | .ok (entries, h') =>
        simp only
        have hwlt := dfsVisit_weight mf n ps h0 h' entries hv
        have hwle : stackWeight (entries ++ rest) ≤ N := by
          rw [stackWeight_append]
          simp only [stackWeight] at hw
          omega
        cases he with
        | head =>
          cases n with
          | mk cs i b sq =>
            obtain ⟨s1, hres, hcases⟩ :=
              dfsVisit_ok_cases mf cs i b sq ps h0 h' entries hv
            simp only at hbad
            rcases hcases with ⟨hnil, nm, hi, _, _⟩ | ⟨hne, hent, _⟩
            · subst hnil
              rw [NNode.allTipsNamed, hi] at hbad
              simp at hbad
            · match cs, hne, hbad with
              | c :: cs', _, hbad =>
                rw [NNode.allTipsNamed] at hbad
                obtain ⟨cbad, hcbad, hcn⟩ := allTipsNamedL_false _ hbad
                apply ih _ h' hwle
                refine ⟨(cbad, some s1), ?_, hcn⟩
                rw [hent]
                simp only [List.mem_append, List.mem_map, List.mem_reverse]
                exact Or.inl ⟨cbad, hcbad, rfl⟩
        | tail _ he =>
          apply ih _ h' hwle
          exact ⟨e, List.mem_append.mpr (Or.inr he), hbad⟩

/-! ## Claims: evolve failure conditions (C8) -/

/-- C8, confirmed.  `dfs_evolve` fails when the root is absent; fails with
the no-ancestral-sequence panic when the root carries no sequence; and ends
in an error whenever a tip without an id sits in the tree (for any mutator,
since any interleaved mutator failure is also an error). -/
theorem claim8_evolve_failures :
    (∀ (t : NTree α) (mf : Sequence α → α → Except String (Sequence α)) h0,
       t.root = none →
       t.dfs_evolve mf h0 = Except.error "Can't evolve an empty tree") ∧
    (∀ (t : NTree α) (mf : Sequence α → α → Except String (Sequence α)) h0
       (r : NNode α), t.root = some r → r.sequence = none →
       t.dfs_evolve mf h0 =
         Except.error "Can't evolve a tree with no ancestral sequence") ∧
    (∀ (t : NTree α) (mf : Sequence α → α → Except String (Sequence α)) h0
       (r : NNode α), t.root = some r → r.allTipsNamed = false →
       isErr (t.dfs_evolve mf h0) = true) := by
  refine ⟨?_, ?_, ?_⟩
  · intro t mf h0 hr
    rw [NTree.dfs_evolve, hr]
  · intro t mf h0 r hr hseq
    rw [NTree.dfs_evolve, hr]
    cases r with
    | mk cs i b sq =>
      rw [NNode.sequence] at hseq
      subst hseq
      exact dfsLoop_cons_err mf (NNode.mk cs i b none) none [] h0 _
        (by simp [dfsVisit, resolveSeq])
  · intro t mf h0 r hr hbad
    rw [NTree.dfs_evolve, hr]
    exact dfsLoop_err_of_unnamed mf (stackWeight [(r, none)]) [(r, none)] h0
      le_rfl ⟨(r, none), by simp, hbad⟩


/-- Witness for C8 on three one-node trees. -/
theorem claim8_evolve_failures_witness :
    NTree.dfs_evolve (α := ℚ)
        { root := none, size := 0, partition := 1, build_str := "" }
        (fun s _ => Except.ok s) [] =
      Except.error "Can't evolve an empty tree" ∧
    NTree.dfs_evolve (α := ℚ)
        { root := some (NNode.mk [] (some "A") 0 none), size := 1,
          partition := 1, build_str := "" }
        (fun s _ => Except.ok s) [] =
      Except.error "Can't evolve a tree with no ancestral sequence" ∧
    isErr (NTree.dfs_evolve (α := ℚ)
        { root := some (NNode.mk [] none 0
            (some { nucleotides := [65], size := 1, freq_table := [(65,1)],
                    max_freq := 1 })),
          size := 1, partition := 1, build_str := "" }
        (fun s _ => Except.ok s) []) = true := by
  refine ⟨?_, ?_, ?_⟩
  · exact (claim8_evolve_failures (α := ℚ)).1 _ _ [] rfl
  · exact (claim8_evolve_failures (α := ℚ)).2.1 _ _ [] _ rfl rfl
  · exact (claim8_evolve_failures (α := ℚ)).2.2 _ _ [] _ rfl rfl


omit [LinearOrderedField α] in
theorem tipNamesL_append (l1 l2 : List (NNode α)) :
    tipNamesL (l1 ++ l2) = tipNamesL l1 ++ tipNamesL l2 := by
  induction l1 with
  | nil => simp [tipNamesL]
  | cons c cs ih =>
    simp only [List.cons_append, tipNamesL, ih, List.append_assoc,
      List.append_eq]

omit [LinearOrderedField α] in
theorem tipNamesL_reverse_perm (l : List (NNode α)) :
    (tipNamesL l.reverse).Perm (tipNamesL l) := by
  induction l with
  | nil => simp [tipNamesL]
  | cons c cs ih =>
    rw [List.reverse_cons, tipNamesL_append]
    have h1 : (tipNamesL cs.reverse ++ tipNamesL [c]).Perm
        (tipNamesL cs ++ tipNamesL [c]) := ih.append_right _
    refine h1.trans ?_
    have h2 : (tipNamesL cs ++ tipNamesL [c]).Perm
        (tipNamesL [c] ++ tipNamesL cs) := List.perm_append_comm
    refine h2.trans ?_
    simp [tipNamesL]

/-- Tip names of all subtrees on a work stack, in stack order. -/
def stackNames : List (NNode α × Option (Sequence α)) → List String
  | [] => []
  | (n, _) :: rest => n.tipNames ++ stackNames rest

omit [LinearOrderedField α] in
theorem stackNames_append (l1 l2 : List (NNode α × Option (Sequence α))) :
    stackNames (l1 ++ l2) = stackNames l1 ++ stackNames l2 := by
  induction l1 with
  | nil => simp [stackNames]
  | cons e l1 ih =>
    obtain ⟨n, ps⟩ := e
    simp only [List.cons_append, stackNames, ih, List.append_assoc,
      List.append_eq]

omit [LinearOrderedField α] in
theorem stackNames_map_const (l : List (NNode α)) (os : Option (Sequence α)) :
    stackNames (l.map (fun c => (c, os))) = tipNamesL l := by
  induction l with
  | nil => simp [stackNames, tipNamesL]
  | cons c cs ih => simp only [List.map_cons, stackNames, tipNamesL, ih]

omit [LinearOrderedField α] in
theorem allTipsNamedL_true (cs : List (NNode α))
    (h : allTipsNamedL cs = true) : ∀ c ∈ cs, c.allTipsNamed = true := by
  induction cs with
  | nil => simp
  | cons c cs ih =>
    rw [allTipsNamedL, Bool.and_eq_true] at h
    intro c' hc'
    rcases List.mem_cons.mp hc' with rfl | hc'
    · exact h.1
    · exact ih h.2 c' hc'

/-- Keys of the result map after inserting a fresh key. -/
theorem hmInsert_map_fst_fresh {β : Type} (h : List (String × β)) (k : String)
    (v : β) (hfresh : k ∉ h.map Prod.fst) :
    (hmInsert h k v).map Prod.fst = h.map Prod.fst ++ [k] := by
  induction h with
  | nil => simp [hmInsert]
  | cons p rest ih =>
    obtain ⟨k', v'⟩ := p
    simp only [List.map_cons, List.mem_cons] at hfresh
    push_neg at hfresh
    rw [hmInsert, if_neg (fun hk => hfresh.1 hk.symm)]
    simp only [List.map_cons, List.cons_append]
    rw [ih hfresh.2]

/-- Members of the result map after an insertion. -/
theorem hmInsert_mem {β : Type} (h : List (String × β)) (k : String) (v : β)
    (p : String × β) (hp : p ∈ hmInsert h k v) : p ∈ h ∨ p = (k, v) := by
  induction h with
  | nil => simpa [hmInsert] using hp
  | cons q rest ih =>
    obtain ⟨k', v'⟩ := q
    rw [hmInsert] at hp
    by_cases hk : k' = k
    · rw [if_pos hk] at hp
      rcases List.mem_cons.mp hp with rfl | hp
      · exact Or.inr (by rw [hk])
      · exact Or.inl (List.mem_cons_of_mem _ hp)
    · rw [if_neg hk] at hp
      rcases List.mem_cons.mp hp with rfl | hp
      · exact Or.inl (List.mem_cons_self _ _)
      · rcases ih hp with hin | heq
        · exact Or.inl (List.mem_cons_of_mem _ hin)
        · exact Or.inr heq

/-- What an entry on the DFS stack guarantees about sequence lengths: a
parent sequence of length `L` was pushed, or (root entry) the node already
carries a sequence of length `L`. -/
def entryOK (L : Nat) (e : NNode α × Option (Sequence α)) : Prop :=
  (∃ s, e.2 = some s ∧ s.nucleotides.length = L) ∨
  (e.2 = none ∧ ∃ s, e.1.sequence = some s ∧ s.nucleotides.length = L)

omit [LinearOrderedField α] in
/-- Resolving an OK entry with a length-preserving mutator succeeds and
keeps the length. -/
theorem resolveSeq_ok_len (mf : Sequence α → α → Except String (Sequence α))
    (L : Nat)
    (hmf : ∀ s v, s.nucleotides.length = L →
      ∃ s', mf s v = Except.ok s' ∧ s'.nucleotides.length = L)
    (cs : List (NNode α)) (i : Option String) (b : α)
    (sq ps : Option (Sequence α))
    (hok : entryOK L ((NNode.mk cs i b sq), ps)) :
    ∃ s1, resolveSeq mf ps b sq = Except.ok s1 ∧
      s1.nucleotides.length = L := by
  rcases hok with ⟨s, hps, hlen⟩ | ⟨hps, s, hsq, hlen⟩
  · simp only at hps
    subst hps
    obtain ⟨s', hs', hlen'⟩ := hmf s b hlen
    exact ⟨s', by rw [resolveSeq, hs'], hlen'⟩
  · simp only at hps
    subst hps
    simp only [NNode.sequence] at hsq
    subst hsq
    exact ⟨s, by rw [resolveSeq], hlen⟩

/-- The DFS loop invariant: with OK entries, all tips named, and the map
keys together with the stack tip names forming a duplicate-free list, the
loop succeeds, its key list becomes (a permutation of) the old keys plus
the stack's tip names, and every recorded sequence has length `L`. -/
theorem dfsLoop_complete (mf : Sequence α → α → Except String (Sequence α))
    (L : Nat)
    (hmf : ∀ s v, s.nucleotides.length = L →
      ∃ s', mf s v = Except.ok s' ∧ s'.nucleotides.length = L) :
    ∀ N (stack : List (NNode α × Option (Sequence α)))
      (h : List (String × Sequence α)),
      stackWeight stack ≤ N →
      (∀ e ∈ stack, entryOK L e) →
      (∀ e ∈ stack, (e : NNode α × Option (Sequence α)).1.allTipsNamed = true) →
      (h.map Prod.fst ++ stackNames stack).Nodup →
      (∀ p ∈ h, (p : String × Sequence α).2.nucleotides.length = L) →
      ∃ h', dfsLoop mf stack h = Except.ok h' ∧
        (h'.map Prod.fst).Perm (h.map Prod.fst ++ stackNames stack) ∧
        ∀ p ∈ h', (p : String × Sequence α).2.nucleotides.length = L := by
  intro N
  induction N with
  | zero =>
    intro stack h hw hok hnamed hnd hvals
    match stack with
    | [] =>
      refine ⟨h, by rw [dfsLoop], ?_, hvals⟩
      simp [stackNames]
    | (n, ps) :: rest =>
      exfalso
      have := n.weight_pos
      simp only [stackWeight] at hw
      omega
  | succ N ih =>
    intro stack h hw hok hnamed hnd hvals
    match stack with
    | [] =>
      refine ⟨h, by rw [dfsLoop], ?_, hvals⟩
      simp [stackNames]
    | (n, ps) :: rest =>
      cases n with
      | mk cs i b sq =>
        obtain ⟨s1, hres, hlen1⟩ := resolveSeq_ok_len mf L hmf cs i b sq ps
          (hok _ (by simp))
        match cs, hnd, hok, hnamed, hw with
        | [], hnd, hok, hnamed, hw =>
          -- tip node: named, so record it
          have hnm : ∃ nm, i = some nm := by
            have := hnamed _ (List.mem_cons_self _ _)
            simp only [NNode.allTipsNamed, Option.isSome_iff_exists] at this
            obtain ⟨nm, hnm⟩ := this
            exact ⟨nm, hnm⟩
          obtain ⟨nm, rfl⟩ := hnm
          have hv : dfsVisit mf (NNode.mk [] (some nm) b sq) ps h =
              Except.ok ([], hmInsert h nm s1) := by
            simp [dfsVisit, hres]
          rw [dfsLoop_cons_ok mf _ ps rest [] h _ hv, List.nil_append]
          have hnames : stackNames ((NNode.mk [] (some nm) b sq, ps) :: rest)
              = [nm] ++ stackNames rest := by
            simp [stackNames, NNode.tipNames]
          rw [hnames, ← List.append_assoc] at hnd
          have hfresh : nm ∉ h.map Prod.fst := by
            have hnd2 := (List.nodup_append.mp hnd).1
            have := (List.nodup_append.mp hnd2).2.2
            intro hmem
            exact this hmem (by simp)
          have hkeys : (hmInsert h nm s1).map Prod.fst =
              h.map Prod.fst ++ [nm] := hmInsert_map_fst_fresh h nm s1 hfresh
          obtain ⟨h', hrun, hperm, hvals'⟩ := ih rest (hmInsert h nm s1)
            (by simp only [stackWeight, NNode.weight, weightL] at hw; omega)
            (fun e he => hok e (by simp [he]))
            (fun e he => hnamed e (by simp [he]))
            (by rw [hkeys]; exact hnd)
            (by intro p hp
                rcases hmInsert_mem h nm s1 p hp with hin | rfl
                · exact hvals p hin
                · exact hlen1)
          refine ⟨h', hrun, ?_, hvals'⟩
          rw [hkeys] at hperm
          rw [hnames, ← List.append_assoc]
          exact hperm
        | c :: cs', hnd, hok, hnamed, hw =>
          -- internal node: push the children
          have hv : dfsVisit mf (NNode.mk (c :: cs') i b sq) ps h =
              Except.ok ((c :: cs').reverse.map (fun ch => (ch, some s1)), h) := by
            simp [dfsVisit, hres]
          rw [dfsLoop_cons_ok mf _ ps rest _ h _ hv]
          have hnamedL : allTipsNamedL (c :: cs') = true := by
            have := hnamed _ (List.mem_cons_self _ _)
            simpa only [NNode.allTipsNamed] using this
          have hperm0 :
              (stackNames ((c :: cs').reverse.map (fun ch => (ch, some s1)) ++ rest)).Perm
                (stackNames ((NNode.mk (c :: cs') i b sq, ps) :: rest)) := by
            rw [stackNames_append, stackNames_map_const]
            show (tipNamesL (c :: cs').reverse ++ stackNames rest).Perm _
            have h1 : (tipNamesL (c :: cs').reverse ++ stackNames rest).Perm
                (tipNamesL (c :: cs') ++ stackNames rest) :=
              (tipNamesL_reverse_perm (c :: cs')).append_right _
            refine h1.trans ?_
            have : stackNames ((NNode.mk (c :: cs') i b sq, ps) :: rest) =
                tipNamesL (c :: cs') ++ stackNames rest := by
              simp [stackNames, NNode.tipNames]
            rw [this]
          obtain ⟨h', hrun, hperm, hvals'⟩ := ih
            ((c :: cs').reverse.map (fun ch => (ch, some s1)) ++ rest) h
            (by rw [stackWeight_append, stackWeight_revmap]
                have h1 := weightL_pos (c :: cs')
                simp only [stackWeight, NNode.weight] at hw
                omega)
            (by intro e he
                rcases List.mem_append.mp he with hin | hin
                · obtain ⟨ch, _, rfl⟩ := List.mem_map.mp hin
                  exact Or.inl ⟨s1, rfl, hlen1⟩
                · exact hok e (by simp [hin]))
            (by intro e he
                rcases List.mem_append.mp he with hin | hin
                · obtain ⟨ch, hch, rfl⟩ := List.mem_map.mp hin
                  exact allTipsNamedL_true (c :: cs') hnamedL ch
                    (List.mem_reverse.mp hch)
                · exact hnamed e (by simp [hin]))
            ((List.Perm.append_left (h.map Prod.fst) hperm0).nodup_iff.mpr hnd)
            hvals
          refine ⟨h', hrun, ?_, hvals'⟩
          exact hperm.trans (List.Perm.append_left (h.map Prod.fst) hperm0)


variable {α : Type} [LinearOrderedField α]

/-- The mutation loop preserves sequence length. -/
theorem mutGo_len (expf : α → α) (m : HKY α) (v : α) (d : Nat → α)
    (l : List Nat) (i : Nat) (ns : List Nat)
    (h : mutGo expf m v d l i = Except.ok ns) : ns.length = l.length := by
  induction l generalizing i ns with
  | nil =>
    simp only [mutGo, Except.ok.injEq] at h
    subst h
    rfl
  | cons n rest ih =>
    simp only [mutGo] at h
    match hrow : HKY.rowOf m n with
    | .error e => simp only [hrow] at h; exact absurd h (by simp)
    | .ok row =>
      simp only [hrow] at h
      match hcb : HKY.chooseBase m.basesList (HKY.trow expf m v row) (d i) with
      | .error e => simp only [hcb] at h; exact absurd h (by simp)
      | .ok nb =>
        simp only [hcb] at h
        match hgo : mutGo expf m v d rest (i + 1) with
        | .error e => simp only [hgo] at h; exact absurd h (by simp)
        | .ok ns' =>
          simp only [hgo, Except.ok.injEq] at h
          rw [← h]
          simp [ih (i + 1) ns' hgo]

/-! ## Claims: DFS completeness (C1) -/

/-- C1, corrected.  `HKY::mutate` preserves sequence length, and for every
tree whose root is seeded with a sequence of the partition length, whose
tips are all named with pairwise-distinct ids, and a mutator that succeeds
and preserves length on partition-length sequences (as `HKY::mutate` does
under its domain contract), `dfs_evolve` returns a mapping with exactly one
entry per tip -- the tip names, up to traversal order -- each sequence of
the partition length.  As frozen the claim is false: an unnamed tip aborts
the traversal (see the counterexample), and duplicate tip names collapse
`HashMap` entries below the tip count. -/
theorem claim1_dfs_completeness :
    (∀ (expf : α → α) (m : HKY α) (s : Sequence α) (v : α) (d : Nat → α)
       (s' : Sequence α), HKY.mutate expf m s v d = Except.ok s' →
       s'.nucleotides.length = s.nucleotides.length) ∧
    (∀ (mf : Sequence α → α → Except String (Sequence α)) (t : NTree α)
       (r : NNode α) (s0 : Sequence α),
       (∀ (s : Sequence α) (v : α), s.nucleotides.length = t.partition →
         ∃ s', mf s v = Except.ok s' ∧
           s'.nucleotides.length = t.partition) →
       t.root = some r → r.sequence = some s0 →
       s0.nucleotides.length = t.partition →
       r.allTipsNamed = true → r.tipNames.Nodup →
       ∃ h', t.dfs_evolve mf [] = Except.ok h' ∧
         h'.length = r.tipNames.length ∧
         (h'.map Prod.fst).Perm r.tipNames ∧
         ∀ p ∈ h', (p : String × Sequence α).2.nucleotides.length =
           t.partition) := by
  constructor
  · intro expf m s v d s' h
    rw [HKY.mutate] at h
    match hgo : mutGo expf m v d s.nucleotides 0 with
    | .error e => simp only [hgo] at h; exact absurd h (by simp)
    | .ok ns =>
      simp only [hgo, Sequence.from_vec] at h
      match hcf : get_cumulative m.table with
      | .error e => simp only [hcf] at h; exact absurd h (by simp)
      | .ok cf =>
        simp only [hcf, Except.ok.injEq] at h
        rw [← h]
        exact mutGo_len expf m v d s.nucleotides 0 ns hgo
  · intro mf t r s0 hmf hroot hseq hlen hnamed hnd
    obtain ⟨h', hrun, hperm, hvals⟩ := dfsLoop_complete mf t.partition hmf
      (stackWeight [(r, none)]) [(r, none)] [] le_rfl
      (by intro e he
          rcases List.mem_singleton.mp he
          exact Or.inr ⟨rfl, s0, hseq, hlen⟩)
      (by intro e he
          rcases List.mem_singleton.mp he
          exact hnamed)
      (by simpa [stackNames] using hnd)
      (by simp)
    rw [NTree.dfs_evolve, hroot]
    refine ⟨h', hrun, ?_, ?_, hvals⟩
    · have := hperm.length_eq
      simpa [stackNames] using this
    · simpa [stackNames] using hperm

/-- Witness for C1 on a two-tip tree with distinct tip names and the seeded
root. -/
theorem claim1_dfs_completeness_witness :
    ∃ h', NTree.dfs_evolve (α := ℚ)
        { root := some (NNode.mk
            [NNode.mk [] (some "A") 0 none, NNode.mk [] (some "B") 0 none]
            none 0
            (some { nucleotides := [65], size := 1, freq_table := [(65,1)],
                    max_freq := 1 })),
          size := 3, partition := 1, build_str := "" }
        (fun s _ => Except.ok s) [] = Except.ok h' ∧
      h'.length = (NNode.mk (α := ℚ)
          [NNode.mk [] (some "A") 0 none, NNode.mk [] (some "B") 0 none]
          none 0
          (some { nucleotides := [65], size := 1, freq_table := [(65,1)],
                  max_freq := 1 })).tipNames.length ∧
      (h'.map Prod.fst).Perm ["A", "B"] ∧
      ∀ p ∈ h', (p : String × Sequence ℚ).2.nucleotides.length = 1 := by
  obtain ⟨h', hrun, hlen, hperm, hvals⟩ :=
    (claim1_dfs_completeness (α := ℚ)).2
    (fun s _ => Except.ok s)
    { root := some (NNode.mk
        [NNode.mk [] (some "A") 0 none, NNode.mk [] (some "B") 0 none]
        none 0
        (some { nucleotides := [65], size := 1, freq_table := [(65,1)],
                max_freq := 1 })),
      size := 3, partition := 1, build_str := "" }
    _ _
    (fun s v hl => ⟨s, rfl, hl⟩)
    rfl rfl rfl
    (by rfl)
    (by simp [NNode.tipNames, tipNamesL])
  refine ⟨h', hrun, hlen, ?_, hvals⟩
  have : (NNode.mk (α := ℚ)
      [NNode.mk [] (some "A") 0 none, NNode.mk [] (some "B") 0 none]
      none 0
      (some { nucleotides := [65], size := 1, freq_table := [(65,1)],
              max_freq := 1 })).tipNames = ["A", "B"] := by
    simp [NNode.tipNames, tipNamesL]
  rw [this] at hperm
  exact hperm

/-- Counterexample to C1 as frozen: a tree with one (unnamed) tip whose
root is seeded, evolved under the program's HKY mutator, returns the
unnamed-tip error rather than a one-entry mapping. -/
theorem claim1_dfs_completeness_cex :
    (NNode.mk (α := ℝ) [] none 0
        (some { nucleotides := [65], size := 1,
                freq_table := [(65, 1)], max_freq := 1 })).tipNames.length
      = 1 ∧
    NTree.dfs_evolve (α := ℝ)
        { root := some (NNode.mk [] none 0
            (some { nucleotides := [65], size := 1,
                    freq_table := [(65, 1)], max_freq := 1 })),
          size := 1, partition := 1, build_str := "" }
        (fun s v => HKY.mutate Real.exp
          (HKY.new (1/4) (1/4) (1/4) (1/4) 65 71 67 84 1 1) s v
          (fun _ => 1/2)) [] =
      Except.error "Currently, only named tip nodes are supported for evolution" := by
  constructor
  · simp [NNode.tipNames]
  · rw [NTree.dfs_evolve]
    simp only
    exact dfsLoop_cons_err _ _ none [] [] _ (by simp [dfsVisit, resolveSeq])


/-! ## Parser step lemmas -/

/-- Parser step on an opening parenthesis. -/
theorem prun_lparen (cs : List Char) (st : PState α) :
    prun ('(' :: cs) st =
      prun cs { st with stack := st.curr :: st.stack,
                        curr := NNode.new_empty } := by
  rw [prun, if_pos rfl]

/-- Parser step on a comma. -/
theorem prun_comma (cs : List Char) (st : PState α) :
    prun (',' :: cs) st =
      match st.stack with
      | [] => Except.error "Empty tree building stack, does your Newick tree have a single root node?"
      | p :: ps =>
        match st.curr.consume st.flag st.buffer with
        | .error e => Except.error e
        | .ok cur =>
          prun cs { stack := p.add_child cur :: ps, curr := NNode.new_empty,
                    buffer := [], flag := 1, size := st.size + 1 } := by
  rw [prun, if_neg (by decide), if_pos rfl]

/-- Parser step on a closing parenthesis. -/
theorem prun_rparen (cs : List Char) (st : PState α) :
    prun (')' :: cs) st =
      match st.stack with
      | [] => Except.error "Empty tree building stack, does your Newick tree have a single root node?"
      | p :: ps =>
        match st.curr.consume st.flag st.buffer with
        | .error e => Except.error e
        | .ok cur =>
          prun cs { stack := ps, curr := p.add_child cur,
                    buffer := [], flag := 1, size := st.size + 1 } := by
  rw [prun, if_neg (by decide), if_neg (by decide), if_pos rfl]

/-- Parser step on a colon. -/
theorem prun_colon (cs : List Char) (st : PState α) :
    prun (':' :: cs) st =
      match st.curr.consume st.flag st.buffer with
      | .error e => Except.error e
      | .ok cur =>
        prun cs { st with curr := cur, buffer := [], flag := 2 } := by
  rw [prun, if_neg (by decide), if_neg (by decide), if_neg (by decide),
    if_pos rfl]

/-- Parser step on the terminating semicolon. -/
theorem prun_semi (cs : List Char) (st : PState α) :
    prun (';' :: cs) st =
      match st.curr.consume st.flag st.buffer with
      | .error e => Except.error e
      | .ok cur =>
        Except.ok ({ st with curr := cur, buffer := [] }, cs) := by
  rw [prun, if_neg (by decide), if_neg (by decide), if_neg (by decide),
    if_neg (by decide), if_pos rfl]

/-- Parser step on a plain character: push it into the buffer. -/
theorem prun_other (c : Char) (cs : List Char) (st : PState α)
    (h1 : ¬ c = '(') (h2 : ¬ c = ',') (h3 : ¬ c = ')') (h4 : ¬ c = ':')
    (h5 : ¬ c = ';') :
    prun (c :: cs) st = prun cs { st with buffer := st.buffer ++ [c] } := by
  rw [prun, if_neg h1, if_neg h2, if_neg h3, if_neg h4, if_neg h5]

/-- Depth-scan step on a character it ignores. -/
theorem ubScan_other (c : Char) (cs : List Char) (d : Nat)
    (h1 : ¬ c = '(') (h2 : ¬ c = ',') (h3 : ¬ c = ')') (h5 : ¬ c = ';') :
    ubScan (c :: cs) d = ubScan cs d := by
  rw [ubScan, if_neg h1, if_neg h2, if_neg h3, if_neg h5]

/-- Branch-scan step on a plain character: push it into the buffer. -/
theorem bbScan_other (c : Char) (cs buf : List Char) (flag : Nat)
    (h1 : ¬ c = '(') (h2 : ¬ c = ',') (h3 : ¬ c = ')') (h4 : ¬ c = ':')
    (h5 : ¬ c = ';') :
    bbScan (c :: cs) buf flag = bbScan cs (buf ++ [c]) flag := by
  rw [bbScan, if_neg h1, if_neg (show ¬ (c = ',' ∨ c = ')') from by
    intro h; rcases h with h | h; exact h2 h; exact h3 h), if_neg h4,
    if_neg h5]

/-! ## Claims: parser rejects malformed input (C6) -/

/-- The parser's parent stack tracks the depth scan: when `ubScan` reports
unbalance, the character loop either fails outright or ends with a
non-empty parent stack. -/
theorem prun_unbalanced :
    ∀ (cs : List Char) (st : PState α), ubScan cs st.stack.length = true →
      ∀ st' rest, prun cs st = Except.ok (st', rest) → st'.stack ≠ [] := by
  intro cs
  induction cs with
  | nil =>
    intro st hub st' rest hp
    rw [ubScan] at hub
    rw [prun] at hp
    simp only [Except.ok.injEq, Prod.mk.injEq] at hp
    rw [← hp.1]
    intro hnil
    rw [hnil] at hub
    simp at hub
  | cons c cs ih =>
    intro st hub st' rest hp
    by_cases h1 : c = '('
    · subst h1
      rw [ubScan, if_pos rfl] at hub
      rw [prun_lparen] at hp
      exact ih _ (by simpa using hub) st' rest hp
    · by_cases h2 : c = ','
      · subst h2
        rw [ubScan, if_neg (by decide), if_pos rfl] at hub
        rw [prun_comma] at hp
        match hstk : st.stack with
        | [] => rw [hstk] at hp; exact absurd hp (by simp)
        | p :: ps =>
          rw [hstk] at hp
          rw [if_neg (by simp [hstk])] at hub
          match hcon : st.curr.consume st.flag st.buffer with
          | .error e => rw [hcon] at hp; exact absurd hp (by simp)
          | .ok cur =>
            rw [hcon] at hp
            exact ih _ (by simpa [hstk] using hub) st' rest hp
      · by_cases h3 : c = ')'
        · subst h3
          rw [ubScan, if_neg (by decide), if_neg (by decide), if_pos rfl]
            at hub
          rw [prun_rparen] at hp
          match hstk : st.stack with
          | [] => rw [hstk] at hp; exact absurd hp (by simp)
          | p :: ps =>
            rw [hstk] at hp
            rw [if_neg (by simp [hstk])] at hub
            match hcon : st.curr.consume st.flag st.buffer with
            | .error e => rw [hcon] at hp; exact absurd hp (by simp)
            | .ok cur =>
              rw [hcon] at hp
              exact ih _ (by simpa [hstk] using hub) st' rest hp
        · by_cases h4 : c = ':'
          · subst h4
            rw [ubScan_other ':' cs _ (by decide) (by decide) (by decide)
              (by decide)] at hub
            rw [prun_colon] at hp
            match hcon : st.curr.consume st.flag st.buffer with
            | .error e => rw [hcon] at hp; exact absurd hp (by simp)
            | .ok cur =>
              rw [hcon] at hp
              exact ih _ (by simpa using hub) st' rest hp
          · by_cases h5 : c = ';'
            · subst h5
              rw [ubScan, if_neg (by decide), if_neg (by decide),
                if_neg (by decide), if_pos rfl] at hub
              rw [prun_semi] at hp
              match hcon : st.curr.consume st.flag st.buffer with
              | .error e => rw [hcon] at hp; exact absurd hp (by simp)
              | .ok cur =>
                rw [hcon] at hp
                simp only [Except.ok.injEq, Prod.mk.injEq] at hp
                rw [← hp.1]
                simp only at hub ⊢
                intro hnil
                rw [hnil] at hub
                simp at hub
            · rw [ubScan_other c cs _ h1 h2 h3 h5] at hub
              rw [prun_other c cs st h1 h2 h3 h4 h5] at hp
              exact ih _ (by simpa using hub) st' rest hp

/-- The parser's buffer and flag track the branch-field scan: when `bbScan`
reports a non-numeric branch field, the character loop fails. -/
theorem prun_badbranch :
    ∀ (cs : List Char) (st : PState α),
      bbScan cs st.buffer st.flag = true →
      isErr (prun cs st) = true := by
  intro cs
  induction cs with
  | nil =>
    intro st hbb
    rw [bbScan] at hbb
    exact absurd hbb (by simp)
  | cons c cs ih =>
    intro st hbb
    by_cases h1 : c = '('
    · subst h1
      rw [bbScan, if_pos rfl] at hbb
      rw [prun_lparen]
      exact ih _ (by simpa using hbb)
    · by_cases h23 : c = ',' ∨ c = ')'
      · have hbb2 : bbScan (c :: cs) st.buffer st.flag =
            (if st.flag = 2 ∧ parseFloat (trimChars st.buffer) = none then true
             else bbScan cs [] 1) := by
          rw [bbScan, if_neg (by rcases h23 with h | h <;> subst h <;> decide),
            if_pos h23]
        rw [hbb2] at hbb
        have hcons : ∀ p ps, st.stack = p :: ps →
            isErr (match st.curr.consume st.flag st.buffer with
              | .error e => (Except.error e :
                  Except String (PState α × List Char))
              | .ok cur =>
                prun cs { stack := p.add_child cur :: ps,
                          curr := NNode.new_empty, buffer := [], flag := 1,
                          size := st.size + 1 }) = true ∧
            isErr (match st.curr.consume st.flag st.buffer with
              | .error e => (Except.error e :
                  Except String (PState α × List Char))
              | .ok cur =>
                prun cs { stack := ps, curr := p.add_child cur, buffer := [],
                          flag := 1, size := st.size + 1 }) = true := by
          intro p ps hstk
          match hcon : st.curr.consume st.flag st.buffer with
          | .error e => exact ⟨rfl, rfl⟩
          | .ok cur =>
            by_cases hbad : st.flag = 2 ∧ parseFloat (trimChars st.buffer) = none
            · exfalso
              rw [NNode.consume] at hcon
              rw [if_neg (by rw [hbad.1]; decide), if_pos hbad.1, hbad.2]
                at hcon
              exact absurd hcon (by simp)
            · rw [if_neg hbad] at hbb
              exact ⟨ih _ (by simpa using hbb), ih _ (by simpa using hbb)⟩
        rcases h23 with h | h
        · subst h
          rw [prun_comma]
          match hstk : st.stack with
          | [] => simp [isErr]
          | p :: ps => exact (hcons p ps hstk).1
        · subst h
          rw [prun_rparen]
          match hstk : st.stack with
          | [] => simp [isErr]
          | p :: ps => exact (hcons p ps hstk).2
      · push_neg at h23
        obtain ⟨h2, h3⟩ := h23
        by_cases h4 : c = ':'
        · subst h4
          have hbb2 : bbScan (':' :: cs) st.buffer st.flag =
              (if st.flag = 2 ∧ parseFloat (trimChars st.buffer) = none
               then true else bbScan cs [] 2) := by
            rw [bbScan, if_neg (by decide), if_neg (by decide), if_pos rfl]
          rw [hbb2] at hbb
          rw [prun_colon]
          match hcon : st.curr.consume st.flag st.buffer with
          | .error e => simp [isErr]
          | .ok cur =>
            by_cases hbad : st.flag = 2 ∧ parseFloat (trimChars st.buffer) = none
            · exfalso
              rw [NNode.consume] at hcon
              rw [if_neg (by rw [hbad.1]; decide), if_pos hbad.1, hbad.2]
                at hcon
              exact absurd hcon (by simp)
            · rw [if_neg hbad] at hbb
              exact ih _ (by simpa using hbb)
        · by_cases h5 : c = ';'
          · subst h5
            have hbb2 : bbScan (';' :: cs) st.buffer st.flag =
                decide (st.flag = 2 ∧
                  parseFloat (trimChars st.buffer) = none) := by
              rw [bbScan, if_neg (by decide), if_neg (by decide),
                if_neg (by decide), if_pos rfl]
            rw [hbb2] at hbb
            have hbad := of_decide_eq_true hbb
            rw [prun_semi]
            match hcon : st.curr.consume st.flag st.buffer with
            | .error e => simp [isErr]
            | .ok cur =>
              exfalso
              rw [NNode.consume] at hcon
              rw [if_neg (by rw [hbad.1]; decide), if_pos hbad.1, hbad.2]
                at hcon
              exact absurd hcon (by simp)
          · rw [bbScan_other c cs st.buffer st.flag h1 h2 h3 h4 h5] at hbb
            rw [prun_other c cs st h1 h2 h3 h4 h5]
            exact ih _ hbb

/-- C6, confirmed.  Parsing fails on every input of the three malformed
kinds: a line whose trimmed text does not end in `';'` (rejected before the
scan begins), a string whose scan hits a `','` or `')'` at empty parent
stack or ends the scan at positive depth (unbalanced parentheses, via the
depth scan `ubScan`), and a string with a non-numeric branch-length field
(via the buffer scan `bbScan`). -/
theorem claim6_parser_rejects_malformed (p : Nat) (s : String)
    (hmal : (trimChars s.data).getLast? ≠ some ';' ∨
      ubScan (trimChars s.data) 0 = true ∨
      bbScan (trimChars s.data) [] 1 = true) :
    isErr (parse_line (α := α) p s) = true := by
  rw [parse_line]
  by_cases hse : (trimChars s.data).getLast? = some ';'
  · simp only [hse, if_true]
    have hmal2 : ubScan (trimChars s.data) 0 = true ∨
        bbScan (trimChars s.data) [] 1 = true := by
      rcases hmal with h | h | h
      · exact absurd hse h
      · exact Or.inl h
      · exact Or.inr h
    rw [NTree.build_from_newick]
    have hroot : (NTree.new (α := α) p
        (String.mk (trimChars s.data))).root.isSome = false := rfl
    rw [hroot, if_neg (by simp)]
    have hbs : (NTree.new (α := α) p
        (String.mk (trimChars s.data))).build_str.data = trimChars s.data :=
      rfl
    rw [hbs]
    have hsz : (NTree.new (α := α) p
        (String.mk (trimChars s.data))).size = 0 := rfl
    rw [hsz]
    rcases hmal2 with hub | hbb
    · match hpr : prun (trimChars s.data)
          { stack := [], curr := NNode.new_empty (α := α), buffer := [],
            flag := 1, size := 0 } with
      | .error e => simp [isErr]
      | .ok (st', rest) =>
        have hne := prun_unbalanced (trimChars s.data) _ (by simpa using hub)
          st' rest hpr
        simp only
        rw [if_neg (by simpa [List.isEmpty_iff] using hne)]
        simp [isErr]
    · have herr := prun_badbranch (trimChars s.data)
        { stack := [], curr := NNode.new_empty (α := α), buffer := [],
          flag := 1, size := 0 } (by simpa using hbb)
      match hpr : prun (trimChars s.data)
          { stack := [], curr := NNode.new_empty (α := α), buffer := [],
            flag := 1, size := 0 } with
      | .error e => simp [isErr]
      | .ok (st', rest) =>
        rw [hpr] at herr
        simp [isErr] at herr
  · simp [hse, isErr]

/-- Witness for C6 on one input of each malformed kind. -/
theorem claim6_parser_rejects_malformed_witness :
    (ubScan (trimChars "(A:0.1,B:0.2;".data) 0 = true ∨
      bbScan (trimChars "(A:xy);".data) [] 1 = true ∨
      (trimChars "(A:0.1,B:0.2)".data).getLast? ≠ some ';') ∧
    isErr (parse_line (α := ℚ) 5 "(A:0.1,B:0.2;") = true ∧
    isErr (parse_line (α := ℚ) 5 "(A:xy);") = true ∧
    isErr (parse_line (α := ℚ) 5 "(A:0.1,B:0.2)") = true := by
  refine ⟨Or.inl (by decide), ?_, ?_, ?_⟩
  · exact claim6_parser_rejects_malformed 5 "(A:0.1,B:0.2;"
      (Or.inr (Or.inl (by decide)))
  · exact claim6_parser_rejects_malformed 5 "(A:xy);"
      (Or.inr (Or.inr (by decide)))
  · exact claim6_parser_rejects_malformed 5 "(A:0.1,B:0.2)"
      (Or.inl (by decide))


end AminoSim

namespace AminoSim

variable {α : Type} [LinearOrderedField α]

def STree.branchStr : STree → String
  | .node _ br _ => br

def STree.kids : STree → Nat
  | .node _ _ f => SForest.count f

def preNode : STree → NNode α
  | .node i br f => .mk (SForest.buildL f) (some i) 0 none

def NNode.add_children : NNode α → List (NNode α) → NNode α
  | .mk cs i b s, l => .mk (cs ++ l) i b s

omit [LinearOrderedField α] in
theorem add_child_add_children (p : NNode α) (c : NNode α)
    (l : List (NNode α)) :
    (p.add_child c).add_children l = p.add_children (c :: l) := by
  cases p with
  | mk cs i b s => simp [NNode.add_child, NNode.add_children]

omit [LinearOrderedField α] in
theorem add_child_eq (p : NNode α) (c : NNode α) :
    p.add_child c = p.add_children [c] := by
  cases p with
  | mk cs i b s => simp [NNode.add_child, NNode.add_children]

theorem plainChar_spec (c : Char) (h : plainChar c = true) :
    ¬ c = '(' ∧ ¬ c = ',' ∧ ¬ c = ')' ∧ ¬ c = ':' ∧ ¬ c = ';' ∧
      isWS c = false := by
  rw [plainChar] at h
  simp only [Bool.not_eq_true', Bool.or_eq_false_iff] at h
  obtain ⟨⟨⟨⟨⟨hp, hq⟩, hr⟩, hs⟩, ht⟩, hw⟩ := h
  refine ⟨?_, ?_, ?_, ?_, ?_, hw⟩
  · intro hc; rw [hc] at hp; simp at hp
  · intro hc; rw [hc] at hr; simp at hr
  · intro hc; rw [hc] at hq; simp at hq
  · intro hc; rw [hc] at hs; simp at hs
  · intro hc; rw [hc] at ht; simp at ht

/-- Plain characters only fill the buffer. -/
theorem prun_plain (cs : List Char) (h : cs.all plainChar = true) :
    ∀ (rest : List Char) (st : PState α),
      prun (cs ++ rest) st = prun rest { st with buffer := st.buffer ++ cs } := by
  induction cs with
  | nil =>
    intro rest st
    simp
  | cons c cs ih =>
    intro rest st
    simp only [List.all_cons, Bool.and_eq_true] at h
    obtain ⟨h1, h2, h3, h4, h5, hw⟩ := plainChar_spec c h.1
    rw [List.cons_append, prun_other c (cs ++ rest) st h1 h2 h3 h4 h5,
      ih h.2 rest _]
    simp [List.append_assoc]

/-- The `prun_plain` with the state spelled out. -/
theorem prun_plain2 (cs : List Char) (h : cs.all plainChar = true)
    (rest : List Char) (stk : List (NNode α)) (curr : NNode α)
    (buf : List Char) (flag sz : Nat) :
    prun (cs ++ rest) ⟨stk, curr, buf, flag, sz⟩ =
      prun rest ⟨stk, curr, buf ++ cs, flag, sz⟩ :=
  prun_plain cs h rest _

/-- The `prun_lparen` with the state spelled out. -/
theorem prun_lparen2 (cs : List Char) (stk : List (NNode α)) (curr : NNode α)
    (buf : List Char) (flag sz : Nat) :
    prun ('(' :: cs) ⟨stk, curr, buf, flag, sz⟩ =
      prun cs ⟨curr :: stk, NNode.new_empty, buf, flag, sz⟩ :=
  prun_lparen cs _

/-- The `prun_colon` on a successful consume, state spelled out. -/
theorem prun_colon_ok (cs : List Char) (stk : List (NNode α)) (curr : NNode α)
    (buf : List Char) (flag sz : Nat) (cur : NNode α)
    (hcon : curr.consume flag buf = Except.ok cur) :
    prun (':' :: cs) ⟨stk, curr, buf, flag, sz⟩ =
      prun cs ⟨stk, cur, [], 2, sz⟩ := by
  rw [prun_colon]
  simp only [hcon]

/-- The `prun_comma` on a successful consume, state spelled out. -/
theorem prun_comma_ok (cs : List Char) (p : NNode α) (ps : List (NNode α))
    (curr : NNode α) (buf : List Char) (flag sz : Nat) (cur : NNode α)
    (hcon : curr.consume flag buf = Except.ok cur) :
    prun (',' :: cs) ⟨p :: ps, curr, buf, flag, sz⟩ =
      prun cs ⟨p.add_child cur :: ps, NNode.new_empty, [], 1, sz + 1⟩ := by
  rw [prun_comma]
  simp only [hcon]

/-- The `prun_rparen` on a successful consume, state spelled out. -/
theorem prun_rparen_ok (cs : List Char) (p : NNode α) (ps : List (NNode α))
    (curr : NNode α) (buf : List Char) (flag sz : Nat) (cur : NNode α)
    (hcon : curr.consume flag buf = Except.ok cur) :
    prun (')' :: cs) ⟨p :: ps, curr, buf, flag, sz⟩ =
      prun cs ⟨ps, p.add_child cur, [], 1, sz + 1⟩ := by
  rw [prun_rparen]
  simp only [hcon]

/-- The `prun_semi` on a successful consume, state spelled out. -/
theorem prun_semi_ok (cs : List Char) (stk : List (NNode α)) (curr : NNode α)
    (buf : List Char) (flag sz : Nat) (cur : NNode α)
    (hcon : curr.consume flag buf = Except.ok cur) :
    prun (';' :: cs) ⟨stk, curr, buf, flag, sz⟩ =
      Except.ok (⟨stk, cur, [], flag, sz⟩, cs) := by
  rw [prun_semi]
  simp only [hcon]

omit [LinearOrderedField α] in
theorem dropWhile_no (p : Char → Bool) (cs : List Char)
    (h : ∀ c ∈ cs, p c = false) : cs.dropWhile p = cs := by
  cases cs with
  | nil => rfl
  | cons c cs =>
    rw [List.dropWhile_cons, if_neg (by simp [h c (by simp)])]

omit [LinearOrderedField α] in
theorem trim_plain (cs : List Char) (h : cs.all plainChar = true) :
    trimChars cs = cs := by
  have hw : ∀ c ∈ cs, isWS c = false := by
    intro c hc
    exact (plainChar_spec c (by
      rw [List.all_eq_true] at h
      exact h c hc)).2.2.2.2.2
  rw [trimChars, dropWhile_no isWS cs hw,
    dropWhile_no isWS cs.reverse (fun c hc => hw c (List.mem_reverse.mp hc)),
    List.reverse_reverse]

omit [LinearOrderedField α] in
theorem set_id_plain (cs : List (NNode α)) (i0 : Option String) (b : α)
    (s : Option (Sequence α)) (i : String) (hne : i.data.isEmpty = false) :
    (NNode.mk cs i0 b s).set_id i.data = NNode.mk cs (some i) b s := by
  rw [NNode.set_id, if_pos (by
    cases hd : i.data with
    | nil => rw [hd] at hne; simp at hne
    | cons c cs' => simp [hd])]

/-- The `consume` with the id flag on a plain non-empty id buffer. -/
theorem consume_id_plain (cs : List (NNode α)) (i0 : Option String) (b : α)
    (s : Option (Sequence α)) (i : String) (hp : plainStr i = true)
    (hne : i.data.isEmpty = false) :
    (NNode.mk cs i0 b s).consume 1 i.data =
      Except.ok (NNode.mk cs (some i) b s) := by
  rw [NNode.consume, if_pos rfl, trim_plain i.data hp,
    set_id_plain cs i0 b s i hne]

/-- The `consume` with the branch flag on a plain numeric buffer. -/
theorem consume_branch_plain (cs : List (NNode α)) (i0 : Option String)
    (b : α) (s : Option (Sequence α)) (br : String) (q : ℚ)
    (hp : plainStr br = true) (hq : parseFloat br.data = some q) :
    (NNode.mk cs i0 b s).consume 2 br.data =
      Except.ok (NNode.mk cs i0 (q : α) s) := by
  rw [NNode.consume, if_neg (by decide), if_pos rfl, trim_plain br.data hp,
    hq]
  rfl

mutual
/-- Running the parser over the serialization of a well-formed non-root
node from a fresh current node: the children group is built and attached,
the id is set, and the branch text sits in the buffer under flag 2,
awaiting the node's closing delimiter. -/
theorem ser_run (t : STree) :
    STree.wf t = true →
    ∀ (stk : List (NNode α)) (sz : Nat) (rest : List Char),
      prun (STree.ser t ++ rest) ⟨stk, NNode.new_empty, [], 1, sz⟩ =
        prun rest
          ⟨stk, preNode t, (STree.branchStr t).data, 2,
            sz + STree.kids t⟩ := by
  cases t with
  | node i br f =>
    intro hwf stk sz rest
    rw [STree.wf] at hwf
    simp only [Bool.and_eq_true] at hwf
    obtain ⟨⟨⟨⟨hpi, hine⟩, hpb⟩, hbs⟩, hwff⟩ := hwf
    have hine2 : i.data.isEmpty = false := by simpa using hine
    rw [STree.ser]
    cases f with
    | nil =>
      rw [SForest.serKids]
      simp only [List.nil_append, List.append_assoc, List.cons_append]
      rw [prun_plain2 i.data hpi]
      simp only [List.nil_append, NNode.new_empty]
      rw [prun_colon_ok _ _ _ _ _ _ _
        (consume_id_plain (α := α) [] none 0 none i hpi hine2)]
      rw [prun_plain2 br.data hpb]
      simp only [List.nil_append, preNode, STree.branchStr, STree.kids,
        SForest.count, SForest.buildL, Nat.add_zero]
    | cons t1 ts1 =>
      rw [SForest.wf] at hwff
      simp only [Bool.and_eq_true] at hwff
      rw [SForest.serKids]
      simp only [List.cons_append, List.append_assoc, List.singleton_append,
        List.nil_append]
      rw [prun_lparen2]
      rw [serInner_run t1 ts1 hwff.1 hwff.2 NNode.new_empty stk sz
        (i.data ++ ':' :: (br.data ++ rest))]
      simp only [NNode.new_empty, NNode.add_children, List.nil_append]
      rw [prun_plain2 i.data hpi]
      simp only [List.nil_append]
      rw [prun_colon_ok _ _ _ _ _ _ _
        (consume_id_plain (α := α) _ none 0 none i hpi hine2)]
      rw [prun_plain2 br.data hpb]
      simp only [List.nil_append, preNode, STree.branchStr, STree.kids,
        SForest.count, SForest.buildL]
  termination_by 2 * sizeOf t
/-- Running the parser over a comma-separated well-formed sibling list from
a fresh current node with parent `p` on top of the stack, followed by the
closing parenthesis: all siblings are built and attached to `p`, which is
popped back as the current node. -/
theorem serInner_run (t : STree) (ts : SForest) :
    STree.wf t = true → SForest.wf ts = true →
    ∀ (p : NNode α) (stk : List (NNode α)) (sz : Nat) (rest : List Char),
      prun (serInner t ts ++ ')' :: rest)
          ⟨p :: stk, NNode.new_empty, [], 1, sz⟩ =
        prun rest
          ⟨stk, p.add_children (STree.build t :: SForest.buildL ts), [], 1,
            sz + (STree.count t + SForest.count ts)⟩ := by
  cases t with
  | node i br f =>
    intro hwt hwts p stk sz rest
    have hq : ∃ q, parseFloat br.data = some q := by
      rw [STree.wf] at hwt
      simp only [Bool.and_eq_true] at hwt
      exact Option.isSome_iff_exists.mp hwt.1.2
    obtain ⟨q, hq⟩ := hq
    have hpb : plainStr br = true := by
      rw [STree.wf] at hwt
      simp only [Bool.and_eq_true] at hwt
      exact hwt.1.1.2
    have hbuild : STree.build (STree.node i br f) =
        NNode.mk (α := α) (SForest.buildL f) (some i) (q : α) none := by
      rw [STree.build, hq]
      rfl
    cases ts with
    | nil =>
      rw [serInner]
      rw [ser_run (STree.node i br f) hwt (p :: stk) sz (')' :: rest)]
      simp only [STree.branchStr, preNode, STree.kids]
      rw [prun_rparen_ok _ _ _ _ _ _ _ _
        (consume_branch_plain (α := α) (SForest.buildL f) (some i) 0 none br q
          hpb hq)]
      rw [add_child_eq, ← hbuild]
      have hsz : sz + SForest.count f + 1 =
          sz + (STree.count (STree.node i br f) + SForest.count SForest.nil) := by
        simp only [STree.count, SForest.count]
        omega
      rw [hsz]
      simp [SForest.buildL]
    | cons t2 ts2 =>
      rw [SForest.wf] at hwts
      simp only [Bool.and_eq_true] at hwts
      rw [serInner]
      simp only [List.append_assoc, List.cons_append]
      rw [ser_run (STree.node i br f) hwt (p :: stk) sz
        (',' :: (serInner t2 ts2 ++ ')' :: rest))]
      simp only [STree.branchStr, preNode, STree.kids]
      rw [prun_comma_ok _ _ _ _ _ _ _ _
        (consume_branch_plain (α := α) (SForest.buildL f) (some i) 0 none br q
          hpb hq)]
      rw [serInner_run t2 ts2 hwts.1 hwts.2
        (p.add_child (NNode.mk (SForest.buildL f) (some i) (q : α) none))
        stk (sz + SForest.count f + 1) rest]
      rw [add_child_add_children, ← hbuild]
      have hsz : sz + SForest.count f + 1 +
          (STree.count t2 + SForest.count ts2) =
          sz + (STree.count (STree.node i br f) +
            SForest.count (SForest.cons t2 ts2)) := by
        simp only [STree.count, SForest.count]
        omega
      rw [hsz]
      simp [SForest.buildL]
  termination_by 2 * (sizeOf t + sizeOf ts) + 1
end

end AminoSim

namespace AminoSim

variable {α : Type} [LinearOrderedField α]

/-- C7: parser round-trip on node count.  For every well-formed Newick
line — a root label of plain text over a well-formed forest of labeled
nodes with numeric branch-length fields — `build_from_newick` succeeds and
the recorded size is exactly the number of labeled non-root nodes plus one
for the root. -/
theorem claim7_parser_round_trip (p : Nat) (i : String) (f : SForest)
    (hpi : plainStr i = true) (hwf : SForest.wf f = true) :
    ∃ r : NNode α,
      NTree.build_from_newick (NTree.new p (String.mk (rootSer i f))) =
        Except.ok { root := some r, size := SForest.count f + 1,
                    partition := p, build_str := "" } := by
  have hid : ∀ cs : List (NNode α),
      (NNode.mk cs none (0 : α) none).consume 1 i.data =
        Except.ok ((NNode.mk cs none 0 none).set_id i.data) := by
    intro cs
    rw [NNode.consume, if_pos rfl, trim_plain i.data hpi]
  have hrun : ∃ r : NNode α,
      prun (rootSer i f) (⟨[], NNode.new_empty, [], 1, 0⟩ : PState α) =
        Except.ok (⟨[], r, [], 1, SForest.count f⟩, []) := by
    cases f with
    | nil =>
      refine ⟨(NNode.mk [] none 0 none).set_id i.data, ?_⟩
      rw [rootSer, SForest.serKids]
      simp only [List.nil_append]
      rw [prun_plain2 i.data hpi]
      simp only [List.nil_append, NNode.new_empty]
      rw [prun_semi_ok _ _ _ _ _ _ _ (hid [])]
      simp [SForest.count]
    | cons t ts =>
      rw [SForest.wf] at hwf
      simp only [Bool.and_eq_true] at hwf
      refine ⟨(NNode.mk (STree.build t :: SForest.buildL ts) none 0
        none).set_id i.data, ?_⟩
      rw [rootSer, SForest.serKids]
      simp only [List.cons_append, List.append_assoc, List.singleton_append,
        List.nil_append]
      rw [prun_lparen2]
      rw [serInner_run t ts hwf.1 hwf.2 NNode.new_empty [] 0
        (i.data ++ [';'])]
      simp only [NNode.new_empty, NNode.add_children, List.nil_append]
      rw [prun_plain2 i.data hpi]
      simp only [List.nil_append]
      rw [prun_semi_ok _ _ _ _ _ _ _ (hid _)]
      simp only [SForest.count, Nat.zero_add]
  obtain ⟨r, hrun⟩ := hrun
  refine ⟨r, ?_⟩
  rw [NTree.build_from_newick]
  simp only [NTree.new, Option.isSome_none, Bool.false_eq_true, if_false]
  rw [hrun]
  simp [NTree.new]

/-- Witness for C7 at the concrete line `(A:0.5,B:1)R;` with partition 4:
both hypotheses hold and the parse succeeds with size 3. -/
theorem claim7_parser_round_trip_witness :
    plainStr "R" = true ∧
    SForest.wf (SForest.cons (STree.node "A" "0.5" SForest.nil)
      (SForest.cons (STree.node "B" "1" SForest.nil) SForest.nil)) = true ∧
    ∃ r : NNode ℚ,
      NTree.build_from_newick (NTree.new 4 (String.mk (rootSer "R"
          (SForest.cons (STree.node "A" "0.5" SForest.nil)
            (SForest.cons (STree.node "B" "1" SForest.nil) SForest.nil))))) =
        Except.ok { root := some r,
                    size := SForest.count
                      (SForest.cons (STree.node "A" "0.5" SForest.nil)
                        (SForest.cons (STree.node "B" "1" SForest.nil)
                          SForest.nil)) + 1,
                    partition := 4, build_str := "" } :=
  ⟨by decide, by decide,
    claim7_parser_round_trip 4 "R"
      (SForest.cons (STree.node "A" "0.5" SForest.nil)
        (SForest.cons (STree.node "B" "1" SForest.nil) SForest.nil))
      (by decide) (by decide)⟩

end AminoSim
